import Mathlib

/-!
Verification development for the modimizer tool-set: a shallow embedding of
the seqhash/modimizer iterator (seqhash.c), the modset open-addressed hash
table (modset.c) and the read-overlap engine (modasm.c), with theorems
checking the natural-language specification against the code.

Machine integers are modelled as Nat with explicit reductions modulo 2^64
(respectively masks) exactly where the C code wraps or masks.
-/

namespace Modimizer
/-! ## Seqhash: the hasher (seqhash.h / seqhash.c) -/

/-- The Seqhash parameter block (struct Seqhash in seqhash.h).  `patternRC`
is modelled as a total function; the C array has four meaningful cells. -/
structure Seqhash where
  seed : Nat
  k : Nat
  w : Nat
  mask : Nat
  shift1 : Nat
  shift2 : Nat
  factor1 : Nat
  factor2 : Nat
  patternRC : Nat → Nat
deriving Inhabited

/-- seqhash (seqhash.h): ((k * sh->factor1) >> sh->shift1) on U64. -/
def seqhash (sh : Seqhash) (x : Nat) : Nat :=
  ((x * sh.factor1) % 2 ^ 64) >>> sh.shift1

/-- hashRC (seqhash.c): canonical hash of the pair (h, hRC) together with the
orientation flag; forward exactly when hashF < hashR. -/
def hashRC (sh : Seqhash) (h hRC : Nat) : Nat × Bool :=
  let hashF := seqhash sh h
  let hashR := seqhash sh hRC
  if hashF < hashR then (hashF, true) else (hashR, false)

/-- Well-formedness of a hasher for k-mer length k: the derived fields that
seqhashCreate computes (mask of 2k bits, reverse-complement patterns). -/
def Seqhash.WF (sh : Seqhash) : Prop :=
  1 ≤ sh.k ∧ sh.k ≤ 31 ∧ 1 ≤ sh.w ∧ sh.mask = 4 ^ sh.k - 1 ∧
    ∀ b, b < 4 → sh.patternRC b = (3 - b) * 4 ^ (sh.k - 1)

/-! ## Spec-side 2-bit k-mer encodings.

`fwdN s k p` is the 2-bit encoding of the k bases s[p..p+k-1]
(first base in the highest 2 bits), `rcN s k p` the encoding of the
reverse complement of the same window. -/

/-- Base at position i of a 2-bit encoded sequence (0 when out of range). -/
def baseAt (s : List Nat) (i : Nat) : Nat := s.getD i 0

/-- Forward 2-bit encoding of the length-k window starting at p. -/
def fwdN (s : List Nat) : Nat → Nat → Nat
  | 0, _ => 0
  | k + 1, p => 4 * fwdN s k p + baseAt s (p + k)

/-- Reverse-complement 2-bit encoding of the length-k window starting at p. -/
def rcN (s : List Nat) : Nat → Nat → Nat
  | 0, _ => 0
  | k + 1, p => (3 - baseAt s p) + 4 * rcN s k (p + 1)

/-! ## The modimizer iterator (modRCiterator / modRCnext, seqhash.c). -/

/-- Iterator state, the fields of SeqhashRCiterator used by the modimizer
path: the rolling values h and hRC, the sequence cursor (si->s as an offset),
the position counter iMin, the pending orientation (fBuf[0]) and pending
hash (hashBuf[0]) and the isDone flag. -/
structure ModRCstate where
  h : Nat
  hRC : Nat
  sPos : Nat
  iMin : Nat
  fCur : Bool
  hashCur : Nat
  isDone : Bool
deriving Inhabited, DecidableEq, Repr

/-- One priming step of modRCiterator: h = (h << 2) | base (no mask),
hRC = (hRC >> 2) | patternRC[base]. -/
def primeStep (sh : Seqhash) (hp : Nat × Nat) (b : Nat) : Nat × Nat :=
  ((hp.1 <<< 2) ||| b, (hp.2 >>> 2) ||| sh.patternRC b)

/-- advanceHashRC (seqhash.c) fused with the ++si->iMin / ++si->s
book-keeping that every modimizer call site pairs with it; the mod iterator
only ever invokes it with the cursor inside the sequence. -/
def advanceStep (sh : Seqhash) (s : List Nat) (st : ModRCstate) : ModRCstate :=
  let b := baseAt s st.sPos
  let h2 := ((st.h <<< 2) &&& sh.mask) ||| b
  let hRC2 := (st.hRC >>> 2) ||| sh.patternRC b
  let hb := hashRC sh h2 hRC2
  { h := h2, hRC := hRC2, sPos := st.sPos + 1, iMin := st.iMin + 1,
    fCur := hb.2, hashCur := hb.1, isDone := st.isDone }

/-- The scanning while-loop shared by modRCiterator and modRCnext: advance
while the current canonical hash is not divisible by w and bases remain. -/
def modScan (sh : Seqhash) (s : List Nat) : Nat → ModRCstate → ModRCstate
  | 0, st => st
  | fuel + 1, st =>
    if st.hashCur % sh.w ≠ 0 ∧ st.sPos < s.length then
      modScan sh s fuel (advanceStep sh s st)
    else st

/-- The state after the priming loop of modRCiterator plus its first hashRC
call: h/hRC hold the first k-mer, the cursor sits at k, iMin at 0. -/
def primedState (sh : Seqhash) (s : List Nat) : ModRCstate :=
  let hp := (s.take sh.k).foldl (primeStep sh) (0, 0)
  let hb := hashRC sh hp.1 hp.2
  { h := hp.1, hRC := hp.2, sPos := sh.k, iMin := 0,
    fCur := hb.2, hashCur := hb.1, isDone := false }

/-- modRCiterator (seqhash.c): empty if len < k, otherwise prime the first
k-mer, hash it, and scan forward to the first hit (or set isDone). -/
def modRCinit (sh : Seqhash) (s : List Nat) : ModRCstate :=
  if s.length < sh.k then
    { h := 0, hRC := 0, sPos := 0, iMin := 0, fCur := false, hashCur := 0, isDone := true }
  else if (modScan sh s (s.length + 1) (primedState sh s)).hashCur % sh.w = 0 then
    modScan sh s (s.length + 1) (primedState sh s)
  else { modScan sh s (s.length + 1) (primedState sh s) with isDone := true }

/-- modRCnext (seqhash.c): emit the pending (kmer, pos, isF) triple, then
either finish (cursor at the end) or scan on to the next hit. -/
def modRCnext (sh : Seqhash) (s : List Nat) (st : ModRCstate) :
    Option ((Nat × Nat × Bool) × ModRCstate) :=
  if st.isDone then none
  else if s.length ≤ st.sPos then
    some ((if st.fCur then st.h else st.hRC, st.iMin, st.fCur), { st with isDone := true })
  else if (modScan sh s (s.length + 1) (advanceStep sh s st)).hashCur % sh.w = 0 then
    some ((if st.fCur then st.h else st.hRC, st.iMin, st.fCur),
      modScan sh s (s.length + 1) (advanceStep sh s st))
  else
    some ((if st.fCur then st.h else st.hRC, st.iMin, st.fCur),
      { modScan sh s (s.length + 1) (advanceStep sh s st) with isDone := true })

/-- Repeatedly calling modRCnext, collecting the emitted triples. -/
def modRCrun (sh : Seqhash) (s : List Nat) : Nat → ModRCstate → List (Nat × Nat × Bool)
  | 0, _ => []
  | fuel + 1, st =>
    match modRCnext sh s st with
    | none => []
    | some (t, st2) => t :: modRCrun sh s fuel st2

/-- The complete output stream of the modimizer iterator over sequence s. -/
def modRCtriples (sh : Seqhash) (s : List Nat) : List (Nat × Nat × Bool) :=
  modRCrun sh s (s.length + 1) (modRCinit sh s)

/-! ## Spec-side description of the iterator output. -/

/-- Canonical hash at position p: the smaller of the forward hash and the
reverse-complement hash of the k-mer starting at p. -/
def canonH (sh : Seqhash) (s : List Nat) (p : Nat) : Nat :=
  min (seqhash sh (fwdN s sh.k p)) (seqhash sh (rcN s sh.k p))

/-- Canonical orientation at position p: forward exactly when the forward
hash is strictly smaller. -/
def canonIsF (sh : Seqhash) (s : List Nat) (p : Nat) : Bool :=
  decide (seqhash sh (fwdN s sh.k p) < seqhash sh (rcN s sh.k p))

/-- The canonical-orientation 2-bit k-mer at position p. -/
def canonKmer (sh : Seqhash) (s : List Nat) (p : Nat) : Nat :=
  if canonIsF sh s p then fwdN s sh.k p else rcN s sh.k p

/-- Spec-side output stream: the positions p in [0, L-k] whose canonical
hash is divisible by w, in increasing order, as (kmer, pos, isF) triples. -/
def modSpecTriples (sh : Seqhash) (s : List Nat) : List (Nat × Nat × Bool) :=
  if s.length < sh.k then []
  else
    ((List.range (s.length - sh.k + 1)).filter
        (fun p => canonH sh s p % sh.w = 0)).map
      (fun p => (canonKmer sh s p, p, canonIsF sh s p))

/-- The unique non-done iterator state whose current k-mer starts at p. -/
def mkStateAt (sh : Seqhash) (s : List Nat) (p : Nat) : ModRCstate :=
  { h := fwdN s sh.k p, hRC := rcN s sh.k p, sPos := p + sh.k, iMin := p,
    fCur := canonIsF sh s p, hashCur := canonH sh s p, isDone := false }

/-- Position at which the scanning loop started at p stops: the first q ≥ p
whose canonical hash is a hit, or the last k-mer position if none is. -/
def scanTarget (sh : Seqhash) (s : List Nat) (p : Nat) : Nat :=
  if canonH sh s p % sh.w = 0 ∨ s.length ≤ p + sh.k then p
  else scanTarget sh s (p + 1)
termination_by s.length - p
decreasing_by
  rename_i hcond
  push_neg at hcond
  omega

/-- The state an initialisation or emission leaves behind when the scan that
started at p has finished: pending at the hit, or done. -/
def afterScan (sh : Seqhash) (s : List Nat) (p : Nat) : ModRCstate :=
  if canonH sh s (scanTarget sh s p) % sh.w = 0 then mkStateAt sh s (scanTarget sh s p)
  else { mkStateAt sh s (scanTarget sh s p) with isDone := true }

/-- Spec-side tail of the output stream: triples for hit positions in
[p, L-k]. -/
def specFrom (sh : Seqhash) (s : List Nat) (p : Nat) : List (Nat × Nat × Bool) :=
  ((List.range' p (s.length - sh.k + 1 - p)).filter
      (fun q => canonH sh s q % sh.w = 0)).map
    (fun q => (canonKmer sh s q, q, canonIsF sh s q))

/-! ## Modset: the open-addressed identity table (modset.h / modset.c).

Arrays are modelled as total functions from indices; machine-integer
wrapping does not arise (indices, ids and depths stay far below their C
types under the explicit size guards modelled below).  `value` is
allocated uninitialised in C and only ever read at ids in [1, max] after
being written; the model fixes the unwritten cells at 0. -/

def U16MAX : Nat := 65535

structure Modset where
  hasher : Seqhash
  tableBits : Nat
  size : Nat
  tableSize : Nat
  tableMask : Nat
  index : Nat → Nat
  value : Nat → Nat
  depth : Nat → Nat
  info : Nat → Nat
  max : Nat
deriving Inhabited

/-- msCopy (modset.h): the copy class, the low 2 bits of info. -/
def msCopy (ms : Modset) (i : Nat) : Nat := ms.info i &&& 3

/-- msIsCopy1 (modset.h). -/
def msIsCopy1 (ms : Modset) (i : Nat) : Bool := ms.info i &&& 3 == 1

/-- The secondary displacement of modsetIndexFind:
((hash >> tableBits) & tableMask) | 1 (computed lazily in C on the first
miss; its value does not depend on when it is computed). -/
def probeStride (ms : Modset) (hash : Nat) : Nat :=
  ((hash >>> ms.tableBits) &&& ms.tableMask) ||| 1

/-- The n-th probe offset for a hash, as iterated by the find loop. -/
def probeOffSeq (ms : Modset) (hash : Nat) : Nat → Nat
  | 0 => hash &&& ms.tableMask
  | n + 1 => (probeOffSeq ms hash n + probeStride ms hash) &&& ms.tableMask

/-- The probe slot is free or holds the sought hash: the negation of the
while-condition of modsetIndexFind. -/
def probeStop (ms : Modset) (hash off : Nat) : Prop :=
  ms.index off = 0 ∨ ms.value (ms.index off) = hash

instance (ms : Modset) (hash off : Nat) : Decidable (probeStop ms hash off) := by
  unfold probeStop; infer_instance

/-- The while loop of modsetIndexFind, with fuel; returns the offset where
the walk stops.  Fuel tableSize always suffices for well-formed tables. -/
def probeLoop (ms : Modset) (hash : Nat) : Nat → Nat → Option Nat
  | 0, _ => none
  | fuel + 1, off =>
    if probeStop ms hash off then some off
    else probeLoop ms hash fuel ((off + probeStride ms hash) &&& ms.tableMask)

/-- modsetIndexFind (modset.c).  Returns the id found (0 when absent and
not adding) together with the possibly extended modset; none models the
fatal "hashTableSize too small" exit (and, formally, fuel exhaustion,
which the termination theorem excludes for well-formed tables). -/
def modsetIndexFind (ms : Modset) (hash : Nat) (isAdd : Bool) : Option (Nat × Modset) :=
  (probeLoop ms hash ms.tableSize (hash &&& ms.tableMask)).bind (fun off =>
    if ms.index off = 0 ∧ isAdd then
      if ms.max + 1 ≥ ms.size then none
      else
        some (ms.max + 1,
          { ms with index := Function.update ms.index off (ms.max + 1),
                    value := Function.update ms.value (ms.max + 1) hash,
                    max := ms.max + 1 })
    else some (ms.index off, ms))

/-- modsetCreate (modset.c); none models the two fatal parameter checks. -/
def modsetCreate (sh : Seqhash) (bits size : Nat) : Option Modset :=
  if bits < 20 ∨ 34 < bits then none
  else if (2 ^ bits) >>> 2 ≤ size then none
  else
    some { hasher := sh, tableBits := bits,
           size := if size ≠ 0 then size else (2 ^ bits) >>> 2 - 1,
           tableSize := 2 ^ bits, tableMask := 2 ^ bits - 1,
           index := fun _ => 0, value := fun _ => 0,
           depth := fun _ => 0, info := fun _ => 0, max := 0 }

/-- modsetPack (modset.c): trim the per-item arrays to max+1 entries (a
size change only in this model). -/
def modsetPack (ms : Modset) : Bool × Modset :=
  if ms.size = ms.max + 1 then (false, ms)
  else (true, { ms with size := ms.max + 1 })

/-- One iteration of the prune loop: re-add a surviving entry and copy its
info and depth to its new id. -/
def pruneStep (dmin dmax : Nat) (acc : Modset) (i : Nat) : Option Modset :=
  if dmin ≤ acc.depth i ∧ (dmax = 0 ∨ acc.depth i < dmax) then
    (modsetIndexFind acc (acc.value i) true).map (fun r =>
      { r.2 with info := Function.update r.2.info r.2.max (r.2.info i),
                 depth := Function.update r.2.depth r.2.max (r.2.depth i) })
  else some acc

/-- modsetDepthPrune (modset.c): clear the table and max, then re-add every
old id whose depth lies in [min, max) (max = 0 meaning unbounded), copying
depth and info to the new dense id. -/
def modsetDepthPrune (ms : Modset) (dmin dmax : Nat) : Option Modset :=
  (List.range' 1 ms.max).foldlM (pruneStep dmin dmax)
    { ms with index := fun _ => 0, max := 0 }

/-- One iteration of the merge loop: find-or-add the other set's value,
saturating-add the depths, and combine the info field exactly as the C
code does: info[index] &= 0x3 then |= min(copy sum, 3). -/
def mergeStep (ms2 : Modset) (acc : Modset) (i : Nat) : Option Modset :=
  (modsetIndexFind acc (ms2.value i) true).map (fun r =>
    { r.2 with
      depth := Function.update r.2.depth r.1 (min (r.2.depth r.1 + ms2.depth i) U16MAX),
      info := Function.update r.2.info r.1
        ((r.2.info r.1 &&& 3) ||| min (msCopy r.2 r.1 + msCopy ms2 i) 3) })

/-- modsetMerge (modset.c).  some (false, ms1) is the non-fatal
incompatible-hasher failure; none models the fatal capacity exit inside
the loop. -/
def modsetMerge (ms1 ms2 : Modset) : Option (Bool × Modset) :=
  if ms1.hasher.w ≠ ms2.hasher.w ∨ ms1.hasher.k ≠ ms2.hasher.k ∨
      ms1.hasher.factor1 ≠ ms2.hasher.factor1 then
    some (false, ms1)
  else
    let newSize0 := ms1.max + ms2.max + 1
    let newSize := if ms1.tableSize >>> 2 ≤ newSize0 then ms1.tableSize >>> 2 - 1 else newSize0
    ((List.range' 1 ms2.max).foldlM (mergeStep ms2) { ms1 with size := newSize }).map
      (fun msf => (true, msf))

/-! ## Modset serialization (modsetWrite / modsetRead, with the embedded
seqhashWrite / seqhashRead).  The byte stream is modelled as a list of
numbers, one element per fwrite item; the magic strings are fixed tags. -/

def seqhashMagic : Nat := 0x325653485351

def modsetMagic : Nat := 0x315653485348534

def seqhashWriteList (sh : Seqhash) : List Nat :=
  [seqhashMagic, sh.seed, sh.k, sh.w, sh.mask, sh.shift1, sh.shift2,
    sh.factor1, sh.factor2, sh.patternRC 0, sh.patternRC 1, sh.patternRC 2, sh.patternRC 3]

def seqhashReadList (l : List Nat) : Option (Seqhash × List Nat) :=
  if l.length < 13 ∨ l.getD 0 0 ≠ seqhashMagic then none
  else some ({ seed := l.getD 1 0, k := l.getD 2 0, w := l.getD 3 0, mask := l.getD 4 0,
               shift1 := l.getD 5 0, shift2 := l.getD 6 0,
               factor1 := l.getD 7 0, factor2 := l.getD 8 0,
               patternRC := fun b =>
                 if b = 0 then l.getD 9 0 else if b = 1 then l.getD 10 0
                 else if b = 2 then l.getD 11 0 else if b = 3 then l.getD 12 0 else 0 },
             l.drop 13)

def modsetWrite (ms : Modset) : List Nat :=
  [modsetMagic, ms.tableBits, ms.max + 1] ++ seqhashWriteList ms.hasher
    ++ (List.range ms.tableSize).map ms.index
    ++ (List.range (ms.max + 1)).map ms.value
    ++ (List.range (ms.max + 1)).map ms.depth
    ++ (List.range (ms.max + 1)).map ms.info

def modsetRead (l : List Nat) : Option Modset :=
  if l.length < 3 ∨ l.getD 0 0 ≠ modsetMagic then none
  else
    (seqhashReadList (l.drop 3)).bind (fun sr =>
      (modsetCreate sr.1 (l.getD 1 0) (l.getD 2 0)).bind (fun ms0 =>
        if sr.2.length < ms0.tableSize + 3 * l.getD 2 0 then none
        else
          some { ms0 with
            index := fun o => (sr.2.take ms0.tableSize).getD o 0,
            value := fun i => ((sr.2.drop ms0.tableSize).take (l.getD 2 0)).getD i 0,
            depth := fun i =>
              (((sr.2.drop ms0.tableSize).drop (l.getD 2 0)).take (l.getD 2 0)).getD i 0,
            info := fun i =>
              ((((sr.2.drop ms0.tableSize).drop (l.getD 2 0)).drop (l.getD 2 0)).take
                (l.getD 2 0)).getD i 0,
            max := l.getD 2 0 - 1 }))

/-! ## Probe-sequence theory. -/

/-- Shape hypotheses tying the stored table geometry to a power of two. -/
def TableGeom (ms : Modset) : Prop :=
  ms.tableSize = 2 ^ ms.tableBits ∧ ms.tableMask = ms.tableSize - 1

/-! ## The modset well-formedness invariant maintained by the public
operations. -/

structure ModsetInv (ms : Modset) : Prop where
  geom : TableGeom ms
  bitslo : 20 ≤ ms.tableBits
  bitshi : ms.tableBits ≤ 34
  maxsize : ms.max < ms.size
  sizecap : ms.size ≤ ms.tableSize >>> 2 - 1
  idxle : ∀ off, off < ms.tableSize → ms.index off ≤ ms.max
  occ : (Finset.filter (fun off => ms.index off ≠ 0) (Finset.range ms.tableSize)).card ≤ ms.max
  find : ∀ i, 1 ≤ i → i ≤ ms.max → ∃ n, n < ms.tableSize ∧
    ms.index (probeOffSeq ms (ms.value i) n) = i ∧
    ∀ m, m < n → ¬ probeStop ms (ms.value i) (probeOffSeq ms (ms.value i) m)

/-- The updated modset an add produces. -/
def msAfterAdd (ms : Modset) (h offE : Nat) : Modset :=
  { ms with index := Function.update ms.index offE (ms.max + 1),
            value := Function.update ms.value (ms.max + 1) h,
            max := ms.max + 1 }

/-- The hasher as it comes back from the serialized stream: identical
except that patternRC is tabulated on its four stored cells. -/
def seqhashRT (sh : Seqhash) : Seqhash where
  seed := sh.seed
  k := sh.k
  w := sh.w
  mask := sh.mask
  shift1 := sh.shift1
  shift2 := sh.shift2
  factor1 := sh.factor1
  factor2 := sh.factor2
  patternRC := fun b =>
    if b = 0 then sh.patternRC 0 else if b = 1 then sh.patternRC 1
    else if b = 2 then sh.patternRC 2 else if b = 3 then sh.patternRC 3 else 0

/-- The modset modsetRead's internal create produces on a written stream. -/
def msCreatedRT (ms : Modset) : Modset where
  hasher := seqhashRT ms.hasher
  tableBits := ms.tableBits
  size := ms.max + 1
  tableSize := 2 ^ ms.tableBits
  tableMask := 2 ^ ms.tableBits - 1
  index := fun _ => 0
  value := fun _ => 0
  depth := fun _ => 0
  info := fun _ => 0
  max := 0

/-- The tail of a written modset stream after the header and hasher. -/
def msTail (ms : Modset) : List Nat :=
  (List.range ms.tableSize).map ms.index ++
    ((List.range (ms.max + 1)).map ms.value ++
      ((List.range (ms.max + 1)).map ms.depth ++ (List.range (ms.max + 1)).map ms.info))

/-- The modset modsetRead reconstructs from a written stream. -/
def msReadResult (ms : Modset) : Modset where
  hasher := seqhashRT ms.hasher
  tableBits := ms.tableBits
  size := ms.max + 1
  tableSize := 2 ^ ms.tableBits
  tableMask := 2 ^ ms.tableBits - 1
  index := fun o => ((msTail ms).take (2 ^ ms.tableBits)).getD o 0
  value := fun i => (((msTail ms).drop (2 ^ ms.tableBits)).take (ms.max + 1)).getD i 0
  depth := fun i => ((((msTail ms).drop (2 ^ ms.tableBits)).drop (ms.max + 1)).take (ms.max + 1)).getD i 0
  info := fun i => (((((msTail ms).drop (2 ^ ms.tableBits)).drop (ms.max + 1)).drop (ms.max + 1)).take (ms.max + 1)).getD i 0
  max := ms.max + 1 - 1

/-- Modsets reachable through the public operations: creation, find-or-add,
depth pruning, merging, and write-then-read. -/
inductive ModsetBuilt : Modset → Prop
  | create (sh : Seqhash) (bits size : Nat) (ms : Modset) :
      modsetCreate sh bits size = some ms → ModsetBuilt ms
  | findAdd (ms : Modset) (h j : Nat) (ms2 : Modset) :
      ModsetBuilt ms → modsetIndexFind ms h true = some (j, ms2) → ModsetBuilt ms2
  | prune (ms : Modset) (a b : Nat) (ms2 : Modset) :
      ModsetBuilt ms → modsetDepthPrune ms a b = some ms2 → ModsetBuilt ms2
  | merge (ms msB : Modset) (fl : Bool) (ms2 : Modset) :
      ModsetBuilt ms → modsetMerge ms msB = some (fl, ms2) → ModsetBuilt ms2
  | readBack (ms ms2 : Modset) :
      ModsetBuilt ms → modsetRead (modsetWrite ms) = some ms2 → ModsetBuilt ms2

/-! ## Characterisation of modsetDepthPrune. -/

/-- The old ids surviving a prune with bounds [a, b) (b = 0 unbounded), in
increasing order. -/
def pruneSurvivors (ms : Modset) (a b N : Nat) : List Nat :=
  (List.range' 1 N).filter (fun i => decide (a ≤ ms.depth i ∧ (b = 0 ∨ ms.depth i < b)))

/-- Invariant carried through the prune loop: after processing old ids
1..t, the rebuilt set holds exactly the survivors of 1..t, in order, with
their old values, depths and infos, and ids above t untouched. -/
structure PruneFoldOK (ms : Modset) (a b t : Nat) (st : Modset) : Prop where
  inv : ModsetInv st
  tbits : st.tableBits = ms.tableBits
  tsize : st.tableSize = ms.tableSize
  tmask : st.tableMask = ms.tableMask
  hsize : st.size = ms.size
  maxeq : st.max = (pruneSurvivors ms a b t).length
  maxle : st.max ≤ t
  oldid : ∀ j, 1 ≤ j → j ≤ st.max →
    j ≤ (pruneSurvivors ms a b t).getD (j - 1) 0 ∧
    (pruneSurvivors ms a b t).getD (j - 1) 0 ≤ t ∧
    1 ≤ (pruneSurvivors ms a b t).getD (j - 1) 0 ∧
    st.value j = ms.value ((pruneSurvivors ms a b t).getD (j - 1) 0) ∧
    st.depth j = ms.depth ((pruneSurvivors ms a b t).getD (j - 1) 0) ∧
    st.info j = ms.info ((pruneSurvivors ms a b t).getD (j - 1) 0)
  pres : ∀ i, t < i →
    st.value i = ms.value i ∧ st.depth i = ms.depth i ∧ st.info i = ms.info i

/-! ## The overlap engine (modasm.c findOverlaps).

A Read stores its hit list as mod ids with the top bit (0x80000000) set
for forward orientation, plus the gaps dx between consecutive hit
positions.  The readset provides the per-mod copy-1 test, depth and the
inverse map from mods to the reads containing them (rs->inv).  Output and
report-level side effects of the C function are dropped; the returned
olap array is modelled as a list. -/

def TOPBIT : Nat := 2147483648

def TOPMASK : Nat := 2147483647

structure Overlap where
  iy : Nat
  nHit : Nat
  isPlus : Bool
  isContained : Bool
  nBadOrder : Nat
  nBadFlip : Nat
deriving Inhabited, DecidableEq, Repr

/-- A freshly allocated (zeroed) Overlap record, as arrayp produces. -/
def Overlap.zero : Overlap :=
  { iy := 0, nHit := 0, isPlus := false, isContained := false, nBadOrder := 0, nBadFlip := 0 }

structure Read where
  len : Nat
  nHit : Nat
  hit : Nat → Nat
  dx : Nat → Nat
  bad : Bool
deriving Inhabited

structure Readset where
  reads : List Read
  isCopy1 : Nat → Bool
  depth : Nat → Nat
  inv : Nat → Nat → Nat
deriving Inhabited

/-- The mutable state of findOverlaps phase 1: the read-to-olap-slot map
omap, the hash-to-hit-index map hmap (storing j+1), the absolute
positions xPos (xPos[j+1] = position of hit j), and the olap array with
its burned 0 slot. -/
structure OlapState where
  omap : Nat → Nat
  hmap : Nat → Nat
  xPos : Nat → Nat
  olap : List Overlap
deriving Inhabited

def bumpHit (l : List Overlap) (i : Nat) : List Overlap :=
  l.set i { l.getD i Overlap.zero with nHit := (l.getD i Overlap.zero).nHit + 1 }

/-- Inner loop body over the reads r2 containing the current mod. -/
def hitStepInner (st : OlapState) (r2 : Nat) : OlapState :=
  if st.omap r2 = 0 then
    { st with olap := st.olap ++ [{ Overlap.zero with iy := r2, nHit := 1 }],
              omap := Function.update st.omap r2 st.olap.length }
  else { st with olap := bumpHit st.olap (st.omap r2) }

def xPosStep (x : Read) (st : OlapState) (j : Nat) : OlapState :=
  { st with xPos := Function.update st.xPos (j + 1) (st.xPos j + x.dx j) }

/-- The copy-1 branch of the phase-1 loop body (after the xPos update):
skip on a repeated mod, otherwise record hmap and accumulate the hit
counts of all reads containing the mod. -/
def copy1Step (rs : Readset) (x : Read) (st : OlapState) (j : Nat) : OlapState :=
  if rs.isCopy1 (x.hit j &&& TOPMASK) then
    (if st.hmap (x.hit j &&& TOPMASK) ≠ 0 then st
     else (List.range (rs.depth (x.hit j &&& TOPMASK))).foldl
        (fun s k => hitStepInner s (rs.inv (x.hit j &&& TOPMASK) k))
        { st with hmap := Function.update st.hmap (x.hit j &&& TOPMASK) (j + 1) })
  else st

def hitStep (rs : Readset) (x : Read) (st : OlapState) (j : Nat) : OlapState :=
  copy1Step rs x (xPosStep x st j) j

def olapInit : OlapState :=
  { omap := fun _ => 0, hmap := fun _ => 0, xPos := fun _ => 0, olap := [Overlap.zero] }

def phase1 (rs : Readset) (x : Read) : OlapState :=
  (List.range x.nHit).foldl (hitStep rs x) olapInit

/-- Number of shared hits of y whose stored orientation bit agrees with
the corresponding hit of x. -/
def countPlus (x y : Read) (hm : Nat → Nat) : Nat :=
  ((List.range y.nHit).filter (fun j =>
    decide (hm (y.hit j &&& TOPMASK) ≠ 0 ∧
      y.hit j &&& TOPBIT = x.hit (hm (y.hit j &&& TOPMASK) - 1) &&& TOPBIT))).length

def countMinus (x y : Read) (hm : Nat → Nat) : Nat :=
  ((List.range y.nHit).filter (fun j =>
    decide (hm (y.hit j &&& TOPMASK) ≠ 0 ∧
      ¬ (y.hit j &&& TOPBIT = x.hit (hm (y.hit j &&& TOPMASK) - 1) &&& TOPBIT)))).length

/-- The per-hit state of the order/containment scans: last shared hit
index in x, its position difference (an int: it can be negative), and
the accumulating isContained / nBadOrder fields. -/
structure DirState where
  last : Nat
  lastDiff : Int
  isContained : Bool
  nBadOrder : Nat
deriving Inhabited, DecidableEq

/-- yPos at iteration j: the C code initialises yPos = dx[0] and adds
dx[j] when moving to iteration j. -/
def yPosAt (y : Read) (j : Nat) : Nat :=
  ((List.range (j + 1)).map y.dx).sum

def plusStep (x y : Read) (hm xp : Nat → Nat) (st : DirState) (j : Nat) : DirState :=
  if hm (y.hit j &&& TOPMASK) ≠ 0 then
    { last := hm (y.hit j &&& TOPMASK),
      lastDiff := (xp (hm (y.hit j &&& TOPMASK)) : Int) - yPosAt y j,
      isContained :=
        if st.last = 0 ∧ (xp (hm (y.hit j &&& TOPMASK)) : Int) - yPosAt y j < 0 then true
        else st.isContained,
      nBadOrder :=
        if hm (y.hit j &&& TOPMASK) < st.last then st.nBadOrder + 1 else st.nBadOrder }
  else st

def minusStep (x y : Read) (hm xp : Nat → Nat) (st : DirState) (j : Nat) : DirState :=
  if hm (y.hit j &&& TOPMASK) ≠ 0 then
    { last := hm (y.hit j &&& TOPMASK),
      lastDiff := (x.len : Int) - xp (hm (y.hit j &&& TOPMASK)) - yPosAt y j,
      isContained :=
        if st.last = 0 ∧ (x.len : Int) - xp (hm (y.hit j &&& TOPMASK)) - yPosAt y j < 0 then true
        else st.isContained,
      nBadOrder :=
        if st.last < hm (y.hit j &&& TOPMASK) then st.nBadOrder + 1 else st.nBadOrder }
  else st

def plusScan (x y : Read) (hm xp : Nat → Nat) (c0 : Bool) (b0 : Nat) : DirState :=
  (List.range y.nHit).foldl (plusStep x y hm xp)
    { last := 0, lastDiff := 0, isContained := c0, nBadOrder := b0 }

def minusScan (x y : Read) (hm xp : Nat → Nat) (c0 : Bool) (b0 : Nat) : DirState :=
  (List.range y.nHit).foldl (minusStep x y hm xp)
    { last := x.nHit, lastDiff := 0, isContained := c0, nBadOrder := b0 }

/-- The post-loop containment correction: clear isContained when x
extends past the end of y. -/
def containedFix (xlen ylen : Nat) (st : DirState) : Bool :=
  if st.isContained = true ∧ (ylen : Int) < (xlen : Int) - st.lastDiff then false
  else st.isContained

def finishPlus (x y : Read) (hm xp : Nat → Nat) (o : Overlap) : Overlap :=
  { o with isPlus := true,
           nBadFlip := countMinus x y hm,
           isContained := containedFix x.len y.len (plusScan x y hm xp o.isContained o.nBadOrder),
           nBadOrder := (plusScan x y hm xp o.isContained o.nBadOrder).nBadOrder }

def finishMinus (x y : Read) (hm xp : Nat → Nat) (o : Overlap) : Overlap :=
  { o with isPlus := false,
           nBadFlip := countPlus x y hm,
           isContained := containedFix x.len y.len (minusScan x y hm xp o.isContained o.nBadOrder),
           nBadOrder := (minusScan x y hm xp o.isContained o.nBadOrder).nBadOrder }

/-- The classification of one examined overlap record (the loop body of
findOverlaps phase 2, minus the break and the truncation). -/
def classifyOne (rs : Readset) (x : Read) (hm xp : Nat → Nat) (o : Overlap) : Overlap :=
  if (rs.reads.getD o.iy default).bad then o
  else if countMinus x (rs.reads.getD o.iy default) hm <
      countPlus x (rs.reads.getD o.iy default) hm then
    finishPlus x (rs.reads.getD o.iy default) hm xp o
  else if countMinus x (rs.reads.getD o.iy default) hm ≠ 0 ∧
      countPlus x (rs.reads.getD o.iy default) hm = 0 then
    finishMinus x (rs.reads.getD o.iy default) hm xp o
  else o

/-- Phase 2 of findOverlaps: the loop runs o over olap[k-1] for k in
[1, arrayMax), breaks at the first record with nHit < 3, and the final
arrayMax(olap) = k keeps that record; the element examined last never
being the final one, a single trailing element always survives. -/
def classifyLoop (rs : Readset) (x : Read) (hm xp : Nat → Nat) : List Overlap → List Overlap
  | [] => []
  | [o] => [o]
  | o :: o2 :: rest =>
    if o.nHit < 3 then [o]
    else classifyOne rs x hm xp o :: classifyLoop rs x hm xp (o2 :: rest)

/-- Comparator of arraySort: descending by nHit. -/
def olapGE (a b : Overlap) : Prop := b.nHit ≤ a.nHit

instance : DecidableRel olapGE := fun a b => Nat.decLe b.nHit a.nHit

instance : IsTotal Overlap olapGE := ⟨fun a b => Nat.le_total b.nHit a.nHit⟩

instance : IsTrans Overlap olapGE := ⟨fun _ _ _ h1 h2 => Nat.le_trans h2 h1⟩

/-- arraySort with compareOverlap: some permutation sorted descending by
nHit (the C qsort is unstable; insertion sort realises one consistent
choice). -/
def sortOlap (l : List Overlap) : List Overlap :=
  List.insertionSort olapGE l

def findOverlaps (rs : Readset) (x : Read) : List Overlap :=
  classifyLoop rs x (phase1 rs x).hmap (phase1 rs x).xPos (sortOlap (phase1 rs x).olap)

/-- Fields zeroed at allocation that phase 1 never writes. -/
def untouched (o : Overlap) : Prop :=
  o.isPlus = false ∧ o.isContained = false ∧ o.nBadOrder = 0 ∧ o.nBadFlip = 0

/-- The combined phase-1 invariant. -/
def OlapOK (st : OlapState) : Prop :=
  0 < st.olap.length ∧ st.olap.getD 0 Overlap.zero = Overlap.zero ∧
    ∀ o ∈ st.olap, untouched o

/-! ## Concrete instances used to separate the claims from their
negations: a shared hasher, small modsets, and a small read set whose
one candidate overlap ties on orientation. -/

def hashEx : Seqhash where
  seed := 7
  k := 16
  w := 50
  mask := 4 ^ 16 - 1
  shift1 := 0
  shift2 := 0
  factor1 := 1
  factor2 := 1
  patternRC := fun b => if b < 4 then (3 - b) * 4 ^ 15 else 0

/-- A modset holding hash 5 at id 1 with depth 10 and copy class 1. -/
def msA : Modset where
  hasher := hashEx
  tableBits := 20
  size := 4
  tableSize := 2 ^ 20
  tableMask := 2 ^ 20 - 1
  index := fun off => if off = 5 then 1 else 0
  value := fun i => if i = 1 then 5 else 0
  depth := fun i => if i = 1 then 10 else 0
  info := fun i => if i = 1 then 1 else 0
  max := 1

/-- Like msA but with depth 20 at id 1. -/
def msB : Modset where
  hasher := hashEx
  tableBits := 20
  size := 4
  tableSize := 2 ^ 20
  tableMask := 2 ^ 20 - 1
  index := fun off => if off = 5 then 1 else 0
  value := fun i => if i = 1 then 5 else 0
  depth := fun i => if i = 1 then 20 else 0
  info := fun i => if i = 1 then 1 else 0
  max := 1

/-- A hasher differing from hashEx in k, for the failing-merge case. -/
def hashEx2 : Seqhash where
  seed := 7
  k := 12
  w := 50
  mask := 4 ^ 12 - 1
  shift1 := 0
  shift2 := 0
  factor1 := 1
  factor2 := 1
  patternRC := fun b => if b < 4 then (3 - b) * 4 ^ 11 else 0

def msB2 : Modset := { msB with hasher := hashEx2 }

/-- The modset modsetCreate (hashEx, 20, 3) builds. -/
def msW0 : Modset where
  hasher := hashEx
  tableBits := 20
  size := 3
  tableSize := 2 ^ 20
  tableMask := 2 ^ 20 - 1
  index := fun _ => 0
  value := fun _ => 0
  depth := fun _ => 0
  info := fun _ => 0
  max := 0

/-- msW0 after find-or-add of hash 7: id 1 in slot 7. -/
def msW : Modset :=
  { msW0 with index := Function.update msW0.index 7 (msW0.max + 1),
              value := Function.update msW0.value (msW0.max + 1) 7,
              max := msW0.max + 1 }

/-- A hasher whose multiplier is 0: every hash is 0, so every forward /
reverse-complement pair ties. -/
def hashZero : Seqhash where
  seed := 0
  k := 2
  w := 1
  mask := 15
  shift1 := 0
  shift2 := 0
  factor1 := 0
  factor2 := 1
  patternRC := fun b => if b < 4 then (3 - b) * 4 else 0

/-- A small well-formed hasher: k = 2, w = 2. -/
def hashSmall : Seqhash where
  seed := 0
  k := 2
  w := 2
  mask := 15
  shift1 := 0
  shift2 := 0
  factor1 := 1
  factor2 := 1
  patternRC := fun b => if b < 4 then (3 - b) * 4 else 0

/-- The read x of the orientation-tie example: four forward hits on mods
1..4 at unit spacing. -/
def xC1 : Read where
  len := 100
  nHit := 4
  hit := fun j => TOPBIT + (j + 1)
  dx := fun _ => 1
  bad := false

/-- The candidate read y: shares all four mods, two in the same
orientation and two flipped. -/
def yC1 : Read where
  len := 100
  nHit := 4
  hit := fun j => if j < 2 then TOPBIT + (j + 1) else j + 1
  dx := fun _ => 1
  bad := false

/-- Read set for the tie example: mods 1..4 are copy-1 with depth 1, all
contained in read 2 = yC1. -/
def rsC1 : Readset where
  reads := [default, default, yC1]
  isCopy1 := fun h => decide (1 ≤ h ∧ h ≤ 4)
  depth := fun h => if 1 ≤ h ∧ h ≤ 4 then 1 else 0
  inv := fun _ _ => 2

/-- An empty read set and read: findOverlaps still returns the burned
record. -/
def rsT : Readset where
  reads := []
  isCopy1 := fun _ => false
  depth := fun _ => 0
  inv := fun _ _ => 0

def xT : Read where
  len := 0
  nHit := 0
  hit := fun _ => 0
  dx := fun _ => 0
  bad := false

/-! ## Theorems. -/

/-- All positions of a 2-bit encoded sequence hold a value below 4 (out of
range positions read as 0). -/
theorem baseAt_lt (s : List Nat) (hs : ∀ b ∈ s, b < 4) (i : Nat) :
    baseAt s i < 4 := by
  unfold baseAt List.getD
  rcases h : s.get? i with _ | b
  · simp
  · simpa using hs b (List.get?_mem h)

theorem fwdN_lt (s : List Nat) (hs : ∀ b ∈ s, b < 4) :
    ∀ k p, fwdN s k p < 4 ^ k := by
  intro k
  induction k with
  | zero => intro p; simp [fwdN]
  | succ k ih =>
    intro p
    have hb : baseAt s (p + k) < 4 := baseAt_lt s hs (p + k)
    have := ih p
    calc 4 * fwdN s k p + baseAt s (p + k) < 4 * fwdN s k p + 4 := by omega
    _ ≤ 4 * 4 ^ k := by omega
    _ = 4 ^ (k + 1) := by ring

theorem rcN_lt (s : List Nat) : ∀ k p, rcN s k p < 4 ^ k := by
  intro k
  induction k with
  | zero => intro p; simp [rcN]
  | succ k ih =>
    intro p
    have h3 : 3 - baseAt s p < 4 := by omega
    have := ih (p + 1)
    calc (3 - baseAt s p) + 4 * rcN s k (p + 1) < 4 + 4 * rcN s k (p + 1) := by omega
    _ ≤ 4 * 4 ^ k := by omega
    _ = 4 ^ (k + 1) := by ring

/-- Splitting a forward window at its first base. -/
theorem fwdN_cons (s : List Nat) :
    ∀ k p, fwdN s (k + 1) p = baseAt s p * 4 ^ k + fwdN s k (p + 1) := by
  intro k
  induction k with
  | zero => intro p; simp [fwdN]
  | succ k ih =>
    intro p
    have h1 : fwdN s (k + 1 + 1) p = 4 * fwdN s (k + 1) p + baseAt s (p + (k + 1)) := rfl
    have h2 : fwdN s (k + 1) (p + 1) = 4 * fwdN s k (p + 1) + baseAt s (p + 1 + k) := rfl
    rw [h1, ih p, h2]
    have : p + 1 + k = p + (k + 1) := by omega
    rw [this]; ring

/-- Splitting a reverse-complement window at its last base. -/
theorem rcN_snoc (s : List Nat) :
    ∀ k p, rcN s (k + 1) p = rcN s k p + (3 - baseAt s (p + k)) * 4 ^ k := by
  intro k
  induction k with
  | zero => intro p; simp [rcN]
  | succ k ih =>
    intro p
    have h1 : rcN s (k + 1 + 1) p = (3 - baseAt s p) + 4 * rcN s (k + 1) (p + 1) := rfl
    have h2 : rcN s (k + 1) p = (3 - baseAt s p) + 4 * rcN s k (p + 1) := rfl
    rw [h1, ih (p + 1), h2]
    have : p + 1 + k = p + (k + 1) := by omega
    rw [this]; ring

/-- Bitwise-or of a multiple of 2^i with a value below 2^i is addition. -/
theorem or_small_eq_add (i a b : Nat) (hb : b < 2 ^ i) :
    (2 ^ i * a) ||| b = 2 ^ i * a + b :=
  (Nat.mul_add_lt_is_or hb a).symm

/-- The forward rolling update of seqhash.c maps the window at p to the
window at p+1: ((h << 2) & mask) | base. -/
theorem fwd_roll (s : List Nat) (hs : ∀ b ∈ s, b < 4) (k p : Nat) :
    ((fwdN s (k + 1) p <<< 2) &&& (4 ^ (k + 1) - 1)) ||| baseAt s (p + (k + 1)) =
      fwdN s (k + 1) (p + 1) := by
  have h4 : (4 : Nat) ^ (k + 1) = 2 ^ (2 * (k + 1)) := by
    rw [show (4 : Nat) = 2 ^ 2 by norm_num, ← pow_mul]
  have hshift : fwdN s (k + 1) p <<< 2 = 4 * fwdN s (k + 1) p := by
    rw [Nat.shiftLeft_eq]; ring
  have hmask : (4 * fwdN s (k + 1) p) &&& (4 ^ (k + 1) - 1) =
      (4 * fwdN s (k + 1) p) % 4 ^ (k + 1) := by
    rw [h4]; exact Nat.and_pow_two_sub_one_eq_mod _ _
  have hcons := fwdN_cons s k p
  have hrem : (4 * fwdN s (k + 1) p) % 4 ^ (k + 1) = 4 * fwdN s k (p + 1) := by
    rw [hcons]
    have : 4 * (baseAt s p * 4 ^ k + fwdN s k (p + 1)) =
        baseAt s p * 4 ^ (k + 1) + 4 * fwdN s k (p + 1) := by ring
    rw [this, Nat.mul_comm (baseAt s p) (4 ^ (k + 1)), Nat.mul_add_mod]
    exact Nat.mod_eq_of_lt (by have := fwdN_lt s hs k (p + 1); omega)
  have hor : (4 * fwdN s k (p + 1)) ||| baseAt s (p + (k + 1)) =
      4 * fwdN s k (p + 1) + baseAt s (p + (k + 1)) := by
    have hb : baseAt s (p + (k + 1)) < 2 ^ 2 := by
      have := baseAt_lt s hs (p + (k + 1)); omega
    have := or_small_eq_add 2 (fwdN s k (p + 1)) (baseAt s (p + (k + 1))) hb
    simpa using this
  rw [hshift, hmask, hrem, hor]
  show 4 * fwdN s k (p + 1) + baseAt s (p + (k + 1)) = fwdN s (k + 1) (p + 1)
  have : p + 1 + k = p + (k + 1) := by omega
  simp only [fwdN, this]

/-- The reverse-complement rolling update of seqhash.c maps the window at p
to the window at p+1: (hRC >> 2) | patternRC[base]. -/
theorem rc_roll (s : List Nat) (k p : Nat) :
    (rcN s (k + 1) p >>> 2) ||| ((3 - baseAt s (p + (k + 1))) * 4 ^ k) =
      rcN s (k + 1) (p + 1) := by
  have hdiv : rcN s (k + 1) p >>> 2 = rcN s k (p + 1) := by
    rw [Nat.shiftRight_eq_div_pow]
    show ((3 - baseAt s p) + 4 * rcN s k (p + 1)) / 2 ^ 2 = rcN s k (p + 1)
    have h2 : (2 : Nat) ^ 2 = 4 := by norm_num
    rw [h2, Nat.add_mul_div_left _ _ (by norm_num : (0:Nat) < 4)]
    have : (3 - baseAt s p) / 4 = 0 := Nat.div_eq_of_lt (by omega)
    omega
  have h4 : (4 : Nat) ^ k = 2 ^ (2 * k) := by
    rw [show (4 : Nat) = 2 ^ 2 by norm_num, ← pow_mul]
  have hor : rcN s k (p + 1) ||| ((3 - baseAt s (p + (k + 1))) * 4 ^ k) =
      rcN s k (p + 1) + (3 - baseAt s (p + (k + 1))) * 4 ^ k := by
    rw [Nat.lor_comm]
    have hb : rcN s k (p + 1) < 2 ^ (2 * k) := by
      have := rcN_lt s k (p + 1); omega
    have hoa := or_small_eq_add (2 * k) (3 - baseAt s (p + (k + 1))) (rcN s k (p + 1)) hb
    rw [← h4] at hoa
    rw [Nat.mul_comm ((3 : Nat) - baseAt s (p + (k + 1))) (4 ^ k), hoa]
    omega
  rw [hdiv, hor]
  have hsnoc := rcN_snoc s k (p + 1)
  have : p + 1 + k = p + (k + 1) := by omega
  rw [this] at hsnoc
  omega

/-- hashRC applied to the two window encodings computes the canonical hash
and orientation. -/
theorem hashRC_canon (sh : Seqhash) (s : List Nat) (p : Nat) :
    hashRC sh (fwdN s sh.k p) (rcN s sh.k p) = (canonH sh s p, canonIsF sh s p) := by
  unfold hashRC canonH canonIsF
  by_cases hlt : seqhash sh (fwdN s sh.k p) < seqhash sh (rcN s sh.k p)
  · rw [Nat.min_eq_left (Nat.le_of_lt hlt)]
    simp [hlt]
  · rw [Nat.min_eq_right (Nat.le_of_not_lt hlt)]
    simp [hlt]

theorem advanceStep_mkStateAt (sh : Seqhash) (s : List Nat) (hwf : sh.WF)
    (hs : ∀ b ∈ s, b < 4) (p : Nat) :
    advanceStep sh s (mkStateAt sh s p) = mkStateAt sh s (p + 1) := by
  obtain ⟨hk1, _, _, hmask, hpat⟩ := hwf
  obtain ⟨k1, hk⟩ : ∃ k1, sh.k = k1 + 1 := ⟨sh.k - 1, by omega⟩
  have hb4 : baseAt s (p + sh.k) < 4 := baseAt_lt s hs _
  have hfwd : ((fwdN s sh.k p <<< 2) &&& sh.mask) ||| baseAt s (p + sh.k) =
      fwdN s sh.k (p + 1) := by
    rw [hmask, hk]
    exact fwd_roll s hs k1 p
  have hrc : (rcN s sh.k p >>> 2) ||| sh.patternRC (baseAt s (p + sh.k)) =
      rcN s sh.k (p + 1) := by
    rw [hpat _ hb4, hk, Nat.add_sub_cancel]
    exact rc_roll s k1 p
  simp only [advanceStep, mkStateAt]
  rw [hfwd, hrc, hashRC_canon]
  have hsp : p + sh.k + 1 = p + 1 + sh.k := by omega
  rw [hsp]

/-- The priming loop of modRCiterator: after j of the first k bases, h holds
the forward encoding of the first j bases and hRC holds their
reverse-complement encoding shifted up to the top of the k-mer window. -/
theorem primed_spec (sh : Seqhash) (s : List Nat) (hwf : sh.WF)
    (hs : ∀ b ∈ s, b < 4) :
    ∀ j, j ≤ sh.k → j ≤ s.length →
      (s.take j).foldl (primeStep sh) (0, 0) =
        (fwdN s j 0, rcN s j 0 * 4 ^ (sh.k - j)) := by
  obtain ⟨hk1, _, _, hmask, hpat⟩ := hwf
  intro j
  induction j with
  | zero => intro _ _; simp [fwdN, rcN]
  | succ j ih =>
    intro hjk hjL
    have hj1 : j ≤ sh.k := by omega
    have hj2 : j ≤ s.length := by omega
    have hjL' : j < s.length := by omega
    have htake : s.take (j + 1) = s.take j ++ [s.getD j 0] := by
      rw [List.take_succ]
      have hsome : s[j]? = some (s.getD j 0) := by
        rw [List.getElem?_eq_getElem hjL']
        congr 1
        exact (List.getD_eq_getElem s 0 hjL').symm
      rw [hsome]
      rfl
    rw [htake, List.foldl_append, ih hj1 hj2]
    show primeStep sh (fwdN s j 0, rcN s j 0 * 4 ^ (sh.k - j)) (s.getD j 0) = _
    have hb : s.getD j 0 = baseAt s j := rfl
    have hb4 : baseAt s j < 4 := baseAt_lt s hs j
    obtain ⟨d, hd⟩ : ∃ d, sh.k - j = d + 1 := ⟨sh.k - j - 1, by omega⟩
    have hkd : sh.k - 1 = j + d := by omega
    have hfst : (fwdN s j 0 <<< 2) ||| baseAt s j = fwdN s (j + 1) 0 := by
      rw [Nat.shiftLeft_eq]
      have h4 : fwdN s j 0 * 2 ^ 2 = 2 ^ 2 * fwdN s j 0 := by ring
      rw [h4, or_small_eq_add 2 _ _ (by omega)]
      show 2 ^ 2 * fwdN s j 0 + baseAt s j = 4 * fwdN s j 0 + baseAt s (0 + j)
      norm_num
    have hsnd : ((rcN s j 0 * 4 ^ (sh.k - j)) >>> 2) ||| sh.patternRC (baseAt s j) =
        rcN s (j + 1) 0 * 4 ^ (sh.k - (j + 1)) := by
      have hdiv : (rcN s j 0 * 4 ^ (sh.k - j)) >>> 2 = rcN s j 0 * 4 ^ d := by
        rw [Nat.shiftRight_eq_div_pow, hd]
        have : rcN s j 0 * 4 ^ (d + 1) = rcN s j 0 * 4 ^ d * 2 ^ 2 := by ring
        rw [this, Nat.mul_div_cancel _ (by norm_num)]
      have hpow : (4 : Nat) ^ (j + d) = 2 ^ (2 * (j + d)) := by
        rw [show (4 : Nat) = 2 ^ 2 by norm_num, ← pow_mul]
      have hlt : rcN s j 0 * 4 ^ d < 2 ^ (2 * (j + d)) := by
        rw [← hpow]
        calc rcN s j 0 * 4 ^ d < 4 ^ j * 4 ^ d := by
              have := rcN_lt s j 0
              have h4d : 0 < (4 : Nat) ^ d := Nat.pos_pow_of_pos d (by norm_num)
              exact Nat.mul_lt_mul_of_lt_of_le this (Nat.le_refl _) h4d
        _ = 4 ^ (j + d) := by rw [pow_add]
      have hor : (rcN s j 0 * 4 ^ d) ||| ((3 - baseAt s j) * 4 ^ (j + d)) =
          rcN s j 0 * 4 ^ d + (3 - baseAt s j) * 4 ^ (j + d) := by
        rw [Nat.lor_comm, Nat.mul_comm ((3 : Nat) - baseAt s j) (4 ^ (j + d))]
        rw [hpow]
        rw [or_small_eq_add _ _ _ hlt]
        omega
      rw [hdiv, hpat _ hb4, hkd, hor]
      have hrs := rcN_snoc s j 0
      have hz : (0 : Nat) + j = j := by omega
      rw [hz] at hrs
      have : sh.k - (j + 1) = d := by omega
      rw [this, hrs]
      ring
    unfold primeStep
    rw [← hb] at hfst hsnd
    simp only [hfst, hsnd]

theorem scanTarget_ge (sh : Seqhash) (s : List Nat) (p : Nat) :
    p ≤ scanTarget sh s p := by
  induction p using scanTarget.induct sh s with
  | case1 p hstop => rw [scanTarget, if_pos hstop]
  | case2 p hstop ih =>
    rw [scanTarget, if_neg hstop]
    omega

theorem scanTarget_le (sh : Seqhash) (s : List Nat) (p : Nat) :
    p + sh.k ≤ s.length → scanTarget sh s p + sh.k ≤ s.length := by
  induction p using scanTarget.induct sh s with
  | case1 p hstop =>
    intro hp
    rw [scanTarget, if_pos hstop]
    exact hp
  | case2 p hstop ih =>
    intro _
    rw [scanTarget, if_neg hstop]
    push_neg at hstop
    exact ih (by omega)

theorem scanTarget_stop (sh : Seqhash) (s : List Nat) (p : Nat) :
    canonH sh s (scanTarget sh s p) % sh.w = 0 ∨
      s.length ≤ scanTarget sh s p + sh.k := by
  induction p using scanTarget.induct sh s with
  | case1 p hstop =>
    rw [scanTarget, if_pos hstop]
    exact hstop
  | case2 p hstop ih =>
    rw [scanTarget, if_neg hstop]
    exact ih

theorem scanTarget_min (sh : Seqhash) (s : List Nat) (p : Nat) :
    ∀ q, p ≤ q → q < scanTarget sh s p → canonH sh s q % sh.w ≠ 0 := by
  induction p using scanTarget.induct sh s with
  | case1 p hstop =>
    rw [scanTarget, if_pos hstop]
    intro q h1 h2
    omega
  | case2 p hstop ih =>
    rw [scanTarget, if_neg hstop]
    intro q h1 h2
    rcases Nat.eq_or_lt_of_le h1 with he | hl
    · subst he
      intro hc
      exact hstop (Or.inl hc)
    · exact ih q hl h2

/-- The scanning loop carries the state at p to the state at scanTarget p. -/
theorem modScan_mkStateAt (sh : Seqhash) (s : List Nat) (hwf : sh.WF)
    (hs : ∀ b ∈ s, b < 4) :
    ∀ fuel p, s.length < p + sh.k + fuel →
      modScan sh s fuel (mkStateAt sh s p) = mkStateAt sh s (scanTarget sh s p) := by
  intro fuel
  induction fuel with
  | zero =>
    intro p hfuel
    rw [scanTarget]
    have : s.length ≤ p + sh.k := by omega
    rw [if_pos (Or.inr this)]
    rfl
  | succ fuel ih =>
    intro p hfuel
    rw [modScan]
    by_cases hstop : canonH sh s p % sh.w = 0 ∨ s.length ≤ p + sh.k
    · rw [scanTarget, if_pos hstop]
      have : ¬((mkStateAt sh s p).hashCur % sh.w ≠ 0 ∧ (mkStateAt sh s p).sPos < s.length) := by
        simp only [mkStateAt]
        omega
      rw [if_neg this]
    · rw [scanTarget, if_neg hstop]
      push_neg at hstop
      have hcond : (mkStateAt sh s p).hashCur % sh.w ≠ 0 ∧ (mkStateAt sh s p).sPos < s.length := by
        simp only [mkStateAt]
        exact ⟨hstop.1, hstop.2⟩
      rw [if_pos hcond, advanceStep_mkStateAt sh s hwf hs p]
      exact ih (p + 1) (by omega)

theorem specFrom_nil (sh : Seqhash) (s : List Nat) (p : Nat)
    (hp : s.length - sh.k + 1 ≤ p) : specFrom sh s p = [] := by
  unfold specFrom
  have : s.length - sh.k + 1 - p = 0 := by omega
  rw [this]
  rfl

theorem specFrom_cons_hit (sh : Seqhash) (s : List Nat) (p : Nat)
    (hp : p + sh.k ≤ s.length) (hit : canonH sh s p % sh.w = 0) :
    specFrom sh s p = (canonKmer sh s p, p, canonIsF sh s p) :: specFrom sh s (p + 1) := by
  unfold specFrom
  obtain ⟨n, hn⟩ : ∃ n, s.length - sh.k + 1 - p = n + 1 := ⟨s.length - sh.k - p, by omega⟩
  rw [hn]
  have hn2 : s.length - sh.k + 1 - (p + 1) = n := by omega
  rw [hn2, List.range'_succ, List.filter_cons_of_pos (by simpa using hit)]
  rfl

theorem specFrom_cons_miss (sh : Seqhash) (s : List Nat) (p : Nat)
    (hp : p + sh.k ≤ s.length) (hmiss : canonH sh s p % sh.w ≠ 0) :
    specFrom sh s p = specFrom sh s (p + 1) := by
  unfold specFrom
  obtain ⟨n, hn⟩ : ∃ n, s.length - sh.k + 1 - p = n + 1 := ⟨s.length - sh.k - p, by omega⟩
  rw [hn]
  have hn2 : s.length - sh.k + 1 - (p + 1) = n := by omega
  rw [hn2, List.range'_succ, List.filter_cons_of_neg (by simpa using hmiss)]

/-- Skipping the non-hit positions up to the scan target does not change the
spec-side stream. -/
theorem specFrom_scanTarget (sh : Seqhash) (s : List Nat) (p : Nat)
    (hp : p + sh.k ≤ s.length) :
    specFrom sh s p = specFrom sh s (scanTarget sh s p) := by
  induction p using scanTarget.induct sh s with
  | case1 p hstop => rw [scanTarget, if_pos hstop]
  | case2 p hstop ih =>
    rw [scanTarget, if_neg hstop]
    push_neg at hstop
    rw [specFrom_cons_miss sh s p hp hstop.1]
    exact ih (by omega)

theorem modRCrun_done (sh : Seqhash) (s : List Nat) (st : ModRCstate)
    (hdone : st.isDone = true) : ∀ fuel, modRCrun sh s fuel st = [] := by
  intro fuel
  cases fuel with
  | zero => rfl
  | succ fuel =>
    rw [modRCrun, modRCnext, if_pos hdone]

theorem mkStateAt_isDone (sh : Seqhash) (s : List Nat) (q : Nat) :
    (mkStateAt sh s q).isDone = false := rfl

theorem mkStateAt_sPos (sh : Seqhash) (s : List Nat) (q : Nat) :
    (mkStateAt sh s q).sPos = q + sh.k := rfl

theorem mkStateAt_hashCur (sh : Seqhash) (s : List Nat) (q : Nat) :
    (mkStateAt sh s q).hashCur = canonH sh s q := rfl

/-- The triple modRCnext emits from the pending state at q. -/
theorem mkStateAt_emit (sh : Seqhash) (s : List Nat) (q : Nat) :
    ((if (mkStateAt sh s q).fCur then (mkStateAt sh s q).h else (mkStateAt sh s q).hRC : Nat),
      (mkStateAt sh s q).iMin, (mkStateAt sh s q).fCur) =
    (canonKmer sh s q, q, canonIsF sh s q) := rfl

/-- modRCnext on a pending state at q: emits the triple for q and leaves
either the done state (q was the last k-mer) or the post-scan state from
q+1. -/
theorem modRCnext_pending (sh : Seqhash) (s : List Nat) (hwf : sh.WF)
    (hs : ∀ b ∈ s, b < 4) (q : Nat) (_hq : q + sh.k ≤ s.length) :
    modRCnext sh s (mkStateAt sh s q) =
      some ((canonKmer sh s q, q, canonIsF sh s q),
        if s.length ≤ q + sh.k then { mkStateAt sh s q with isDone := true }
        else afterScan sh s (q + 1)) := by
  unfold modRCnext
  rw [mkStateAt_isDone, if_neg Bool.false_ne_true, mkStateAt_sPos, mkStateAt_emit]
  by_cases hend : s.length ≤ q + sh.k
  · rw [if_pos hend, if_pos hend]
    rfl
  · rw [if_neg hend, if_neg hend]
    rw [advanceStep_mkStateAt sh s hwf hs q,
      modScan_mkStateAt sh s hwf hs (s.length + 1) (q + 1) (by omega),
      mkStateAt_hashCur]
    unfold afterScan
    by_cases hhit : canonH sh s (scanTarget sh s (q + 1)) % sh.w = 0
    · rw [if_pos hhit, if_pos hhit]
    · rw [if_neg hhit, if_neg hhit]

theorem modRCrun_zero (sh : Seqhash) (s : List Nat) (st : ModRCstate) :
    modRCrun sh s 0 st = [] := rfl

/-- Unfolding one successful step of the driver loop. -/
theorem modRCrun_succ (sh : Seqhash) (s : List Nat) (fuel : Nat) (st : ModRCstate)
    (t : Nat × Nat × Bool) (st2 : ModRCstate) (h : modRCnext sh s st = some (t, st2)) :
    modRCrun sh s (fuel + 1) st = t :: modRCrun sh s fuel st2 := by
  rw [modRCrun, h]

/-- Running the iterator from any post-scan state yields exactly the
spec-side stream of remaining hits. -/
theorem modRCrun_afterScan (sh : Seqhash) (s : List Nat) (hwf : sh.WF)
    (hs : ∀ b ∈ s, b < 4) :
    ∀ fuel p, p + sh.k ≤ s.length → s.length - sh.k + 1 - p ≤ fuel →
      modRCrun sh s fuel (afterScan sh s p) = specFrom sh s p := by
  intro fuel
  induction fuel with
  | zero =>
    intro p hp hfuel
    omega
  | succ fuel ih =>
    intro p hp hfuel
    have hq1 : p ≤ scanTarget sh s p := scanTarget_ge sh s p
    have hq2 : scanTarget sh s p + sh.k ≤ s.length := scanTarget_le sh s p hp
    rw [specFrom_scanTarget sh s p hp]
    unfold afterScan
    by_cases hhit : canonH sh s (scanTarget sh s p) % sh.w = 0
    · rw [if_pos hhit]
      by_cases hend : s.length ≤ scanTarget sh s p + sh.k
      · have hnext := modRCnext_pending sh s hwf hs _ hq2
        rw [if_pos hend] at hnext
        rw [modRCrun_succ sh s fuel _ _ _ hnext]
        rw [modRCrun_done sh s { mkStateAt sh s (scanTarget sh s p) with isDone := true } rfl]
        rw [specFrom_cons_hit sh s _ hq2 hhit,
          specFrom_nil sh s (scanTarget sh s p + 1) (by omega)]
      · have hnext := modRCnext_pending sh s hwf hs _ hq2
        rw [if_neg hend] at hnext
        rw [modRCrun_succ sh s fuel _ _ _ hnext]
        rw [ih (scanTarget sh s p + 1) (by omega) (by omega)]
        rw [specFrom_cons_hit sh s _ hq2 hhit]
    · rw [if_neg hhit]
      rw [modRCrun_done sh s { mkStateAt sh s (scanTarget sh s p) with isDone := true } rfl]
      rcases scanTarget_stop sh s p with hstop | hstop
      · exact absurd hstop hhit
      · have hq3 : s.length - sh.k + 1 - scanTarget sh s p = 1 := by omega
        unfold specFrom
        rw [hq3, List.range'_one, List.filter_cons_of_neg (by simpa using hhit)]
        rfl

/-- The iterator state right after modRCiterator, when the sequence holds at
least one k-mer, is the post-scan state from position 0. -/
theorem primedState_eq (sh : Seqhash) (s : List Nat) (hwf : sh.WF)
    (hs : ∀ b ∈ s, b < 4) (hlen : sh.k ≤ s.length) :
    primedState sh s = mkStateAt sh s 0 := by
  have hprime := primed_spec sh s hwf hs sh.k (Nat.le_refl _) hlen
  rw [Nat.sub_self, pow_zero, Nat.mul_one] at hprime
  unfold primedState
  rw [hprime]
  simp [mkStateAt, hashRC_canon]

theorem modRCinit_eq (sh : Seqhash) (s : List Nat) (hwf : sh.WF)
    (hs : ∀ b ∈ s, b < 4) (hlen : sh.k ≤ s.length) :
    modRCinit sh s = afterScan sh s 0 := by
  unfold modRCinit
  rw [if_neg (by omega)]
  rw [primedState_eq sh s hwf hs hlen]
  rw [modScan_mkStateAt sh s hwf hs (s.length + 1) 0 (by omega),
    mkStateAt_hashCur]
  unfold afterScan
  by_cases hhit : canonH sh s (scanTarget sh s 0) % sh.w = 0
  · rw [if_pos hhit]
  · rw [if_neg hhit]

/-- Full iterator correctness: the stream of emitted triples is exactly the
spec-side stream. -/
theorem modRC_triples_spec (sh : Seqhash) (s : List Nat) (hwf : sh.WF)
    (hs : ∀ b ∈ s, b < 4) :
    modRCtriples sh s = modSpecTriples sh s := by
  by_cases hlen : s.length < sh.k
  · unfold modRCtriples modSpecTriples modRCinit
    rw [if_pos hlen, if_pos hlen]
    exact modRCrun_done sh s _ rfl _
  · push_neg at hlen
    unfold modRCtriples
    rw [modRCinit_eq sh s hwf hs hlen]
    rw [modRCrun_afterScan sh s hwf hs (s.length + 1) 0 (by omega) (by omega)]
    unfold specFrom modSpecTriples
    rw [if_neg (by omega), Nat.sub_zero, List.range_eq_range']

theorem and_mask_eq_mod (ms : Modset) (hg : TableGeom ms) (x : Nat) :
    x &&& ms.tableMask = x % ms.tableSize := by
  obtain ⟨hts, hmk⟩ := hg
  rw [hmk, hts]
  exact Nat.and_pow_two_sub_one_eq_mod x ms.tableBits

theorem tableSize_pos (ms : Modset) (hg : TableGeom ms) : 0 < ms.tableSize := by
  rw [hg.1]; exact Nat.pos_pow_of_pos _ (by norm_num)

theorem probeOffSeq_closed (ms : Modset) (hg : TableGeom ms) (h : Nat) :
    ∀ n, probeOffSeq ms h n = (h + n * probeStride ms h) % ms.tableSize := by
  intro n
  induction n with
  | zero =>
    show h &&& ms.tableMask = (h + 0 * probeStride ms h) % ms.tableSize
    rw [and_mask_eq_mod ms hg]
    norm_num
  | succ n ih =>
    show (probeOffSeq ms h n + probeStride ms h) &&& ms.tableMask = _
    rw [and_mask_eq_mod ms hg, ih, Nat.mod_add_mod]
    congr 1
    ring

theorem probeOffSeq_lt (ms : Modset) (hg : TableGeom ms) (h n : Nat) :
    probeOffSeq ms h n < ms.tableSize := by
  rw [probeOffSeq_closed ms hg h n]
  exact Nat.mod_lt _ (tableSize_pos ms hg)

theorem probeStride_odd (ms : Modset) (h : Nat) : probeStride ms h % 2 = 1 := by
  unfold probeStride
  simp

theorem probeStride_coprime (ms : Modset) (hg : TableGeom ms) (h : Nat) :
    Nat.Coprime (probeStride ms h) ms.tableSize := by
  rw [hg.1]
  apply Nat.Coprime.pow_right
  have hodd : Odd (probeStride ms h) := Nat.odd_iff.mpr (probeStride_odd ms h)
  exact Nat.coprime_two_right.mpr hodd

theorem probeOffSeq_inj_le (ms : Modset) (hg : TableGeom ms) (h : Nat)
    {n m : Nat} (hnm : n ≤ m) (hm : m < ms.tableSize)
    (he : probeOffSeq ms h n = probeOffSeq ms h m) : n = m := by
  rw [probeOffSeq_closed ms hg h n, probeOffSeq_closed ms hg h m] at he
  have hmod : (h + n * probeStride ms h) ≡ (h + m * probeStride ms h) [MOD ms.tableSize] := he
  have hle : h + n * probeStride ms h ≤ h + m * probeStride ms h :=
    Nat.add_le_add_left (Nat.mul_le_mul_right _ hnm) h
  have hdvd : ms.tableSize ∣ (h + m * probeStride ms h) - (h + n * probeStride ms h) :=
    (Nat.modEq_iff_dvd' hle).mp hmod
  have hsub : (h + m * probeStride ms h) - (h + n * probeStride ms h) =
      (m - n) * probeStride ms h := by
    rw [Nat.add_sub_add_left, ← Nat.sub_mul]
  rw [hsub] at hdvd
  have hco : Nat.Coprime ms.tableSize (probeStride ms h) :=
    (probeStride_coprime ms hg h).symm
  have hdvd2 : ms.tableSize ∣ m - n := hco.dvd_of_dvd_mul_right hdvd
  have hlt : m - n < ms.tableSize := by omega
  have : m - n = 0 := Nat.eq_zero_of_dvd_of_lt hdvd2 hlt
  omega

theorem probeOffSeq_inj (ms : Modset) (hg : TableGeom ms) (h : Nat)
    {n m : Nat} (hn : n < ms.tableSize) (hm : m < ms.tableSize)
    (he : probeOffSeq ms h n = probeOffSeq ms h m) : n = m := by
  rcases Nat.le_total n m with hle | hle
  · exact probeOffSeq_inj_le ms hg h hle hm he
  · exact (probeOffSeq_inj_le ms hg h hle hn he.symm).symm

/-- The first tableSize probe offsets cover every slot. -/
theorem probeOffSeq_surj (ms : Modset) (hg : TableGeom ms) (h : Nat)
    (slot : Nat) (hs : slot < ms.tableSize) :
    ∃ n < ms.tableSize, probeOffSeq ms h n = slot := by
  have himg : (Finset.range ms.tableSize).image (probeOffSeq ms h) = Finset.range ms.tableSize := by
    apply Finset.eq_of_subset_of_card_le
    · intro x hx
      simp only [Finset.mem_image, Finset.mem_range] at hx ⊢
      obtain ⟨n, _, hn2⟩ := hx
      rw [← hn2]
      exact probeOffSeq_lt ms hg h n
    · rw [Finset.card_image_of_injOn]
      · intro a ha b hb hab
        simp only [Finset.coe_range, Set.mem_Iio] at ha hb
        exact probeOffSeq_inj ms hg h ha hb hab
  have : slot ∈ (Finset.range ms.tableSize).image (probeOffSeq ms h) := by
    rw [himg]; exact Finset.mem_range.mpr hs
  simp only [Finset.mem_image, Finset.mem_range] at this
  obtain ⟨n, hn1, hn2⟩ := this
  exact ⟨n, hn1, hn2⟩

/-- Occupancy bound: if fewer than tableSize slots are occupied, the probe
sequence reaches an empty slot within tableSize probes. -/
theorem exists_empty_probe (ms : Modset) (hg : TableGeom ms) (h : Nat)
    (hocc : (Finset.filter (fun off => ms.index off ≠ 0)
        (Finset.range ms.tableSize)).card < ms.tableSize) :
    ∃ n < ms.tableSize, ms.index (probeOffSeq ms h n) = 0 := by
  by_contra hcon
  push_neg at hcon
  have hsub : (Finset.range ms.tableSize).image (probeOffSeq ms h) ⊆
      Finset.filter (fun off => ms.index off ≠ 0) (Finset.range ms.tableSize) := by
    intro x hx
    simp only [Finset.mem_image, Finset.mem_range] at hx
    obtain ⟨n, hn1, hn2⟩ := hx
    rw [Finset.mem_filter, Finset.mem_range, ← hn2]
    exact ⟨probeOffSeq_lt ms hg h n, hcon n hn1⟩
  have hcard : ((Finset.range ms.tableSize).image (probeOffSeq ms h)).card = ms.tableSize := by
    rw [Finset.card_image_of_injOn]
    · exact Finset.card_range _
    · intro a ha b hb hab
      simp only [Finset.coe_range, Set.mem_Iio] at ha hb
      exact probeOffSeq_inj ms hg h ha hb hab
  have := Finset.card_le_card hsub
  omega

/-- The probe loop reaches the first stopping offset. -/
theorem probeLoop_eq (ms : Modset) (h : Nat) :
    ∀ j fuel n, j < fuel →
      (∀ m < j, ¬ probeStop ms h (probeOffSeq ms h (n + m))) →
      probeStop ms h (probeOffSeq ms h (n + j)) →
      probeLoop ms h fuel (probeOffSeq ms h n) = some (probeOffSeq ms h (n + j)) := by
  intro j
  induction j with
  | zero =>
    intro fuel n hf _ hstop
    obtain ⟨f, rfl⟩ : ∃ f, fuel = f + 1 := ⟨fuel - 1, by omega⟩
    rw [probeLoop, if_pos (by simpa using hstop)]
    simp
  | succ j ih =>
    intro fuel n hf hpre hstop
    obtain ⟨f, rfl⟩ : ∃ f, fuel = f + 1 := ⟨fuel - 1, by omega⟩
    have hn0 : ¬ probeStop ms h (probeOffSeq ms h n) := by
      have := hpre 0 (by omega)
      simpa using this
    rw [probeLoop, if_neg hn0]
    have hstep : (probeOffSeq ms h n + probeStride ms h) &&& ms.tableMask =
        probeOffSeq ms h (n + 1) := rfl
    rw [hstep]
    have hpre2 : ∀ m < j, ¬ probeStop ms h (probeOffSeq ms h (n + 1 + m)) := by
      intro m hm
      have := hpre (m + 1) (by omega)
      have harr : n + (m + 1) = n + 1 + m := by omega
      rwa [harr] at this
    have hstop2 : probeStop ms h (probeOffSeq ms h (n + 1 + j)) := by
      have harr : n + (j + 1) = n + 1 + j := by omega
      rwa [harr] at hstop
    have hrec := ih f (n + 1) (by omega) hpre2 hstop2
    have harr : n + 1 + j = n + (j + 1) := by omega
    rw [harr] at hrec
    exact hrec

/-- Conversely, any successful probe stops at a stopping offset reached
along the sequence with no earlier stop. -/
theorem probeLoop_sound (ms : Modset) (h : Nat) :
    ∀ fuel n off, probeLoop ms h fuel (probeOffSeq ms h n) = some off →
      ∃ j, off = probeOffSeq ms h (n + j) ∧ probeStop ms h off ∧
        ∀ m < j, ¬ probeStop ms h (probeOffSeq ms h (n + m)) := by
  intro fuel
  induction fuel with
  | zero => intro n off hcon; exact absurd hcon (by rw [probeLoop]; simp)
  | succ fuel ih =>
    intro n off hrun
    rw [probeLoop] at hrun
    by_cases hstop : probeStop ms h (probeOffSeq ms h n)
    · rw [if_pos hstop] at hrun
      refine ⟨0, by simpa using hrun.symm, ?_, by omega⟩
      rw [Option.some_inj] at hrun
      rwa [← hrun]
    · rw [if_neg hstop] at hrun
      have hstep : (probeOffSeq ms h n + probeStride ms h) &&& ms.tableMask =
          probeOffSeq ms h (n + 1) := rfl
      rw [hstep] at hrun
      obtain ⟨j, hj1, hj2, hj3⟩ := ih (n + 1) off hrun
      refine ⟨j + 1, by rwa [show n + (j + 1) = n + 1 + j by omega], hj2, ?_⟩
      intro m hm
      rcases Nat.eq_zero_or_pos m with rfl | hmpos
      · simpa using hstop
      · have := hj3 (m - 1) (by omega)
        rwa [show n + 1 + (m - 1) = n + m by omega] at this

theorem inv_ts_big (ms : Modset) (inv : ModsetInv ms) : 2 ^ 20 ≤ ms.tableSize := by
  rw [inv.geom.1]
  exact Nat.pow_le_pow_right (by norm_num) inv.bitslo

theorem inv_shift_div (ms : Modset) : ms.tableSize >>> 2 = ms.tableSize / 4 := by
  rw [Nat.shiftRight_eq_div_pow]

theorem inv_max_lt_ts (ms : Modset) (inv : ModsetInv ms) : ms.max < ms.tableSize := by
  have h1 := inv.maxsize
  have h2 := inv.sizecap
  have h3 := inv_ts_big ms inv
  have h4 := inv_shift_div ms
  have : (2 : Nat) ^ 20 = 1048576 := by norm_num
  omega

theorem inv_occ_lt (ms : Modset) (inv : ModsetInv ms) :
    (Finset.filter (fun off => ms.index off ≠ 0) (Finset.range ms.tableSize)).card <
      ms.tableSize := by
  have := inv.occ
  have := inv_max_lt_ts ms inv
  omega

/-- probeOffSeq only looks at the table geometry. -/
theorem probeOffSeq_congr (ms2 ms : Modset) (h : Nat)
    (hm : ms2.tableMask = ms.tableMask) (hb : ms2.tableBits = ms.tableBits) :
    ∀ n, probeOffSeq ms2 h n = probeOffSeq ms h n := by
  intro n
  induction n with
  | zero => show h &&& ms2.tableMask = h &&& ms.tableMask; rw [hm]
  | succ n ih =>
    show (probeOffSeq ms2 h n + probeStride ms2 h) &&& ms2.tableMask = _
    rw [ih, hm]
    unfold probeStride
    rw [hm, hb]
    rfl

/-- modsetIndexFind returns an id present in the table unchanged: the find
invariant in executable form. -/
theorem modsetIndexFind_value (ms : Modset) (inv : ModsetInv ms) (i : Nat)
    (h1 : 1 ≤ i) (h2 : i ≤ ms.max) (isAdd : Bool) :
    modsetIndexFind ms (ms.value i) isAdd = some (i, ms) := by
  obtain ⟨n, hn, hidx, hpre⟩ := inv.find i h1 h2
  have hstop : probeStop ms (ms.value i) (probeOffSeq ms (ms.value i) n) :=
    Or.inr (by rw [hidx])
  have hloop := probeLoop_eq ms (ms.value i) n ms.tableSize 0 (by omega)
    (by intro m hm; simpa using hpre m hm) (by simpa using hstop)
  simp only [Nat.zero_add] at hloop
  unfold modsetIndexFind
  have h0 : (ms.value i &&& ms.tableMask) = probeOffSeq ms (ms.value i) 0 := rfl
  rw [h0, hloop, Option.some_bind]
  have hne : ¬(ms.index (probeOffSeq ms (ms.value i) n) = 0 ∧ isAdd = true) := by
    rw [hidx]; omega
  rw [if_neg hne, hidx]

/-- Every successful find-or-add either finds an existing id (modset
unchanged) or allocates max+1 into the first empty probe slot. -/
theorem modsetIndexFind_add_cases (ms : Modset) (inv : ModsetInv ms) (h : Nat)
    (r : Nat × Modset) (hrun : modsetIndexFind ms h true = some r) :
    (r = (r.1, ms) ∧ 1 ≤ r.1 ∧ r.1 ≤ ms.max ∧ ms.value r.1 = h) ∨
    (∃ n, n < ms.tableSize ∧ ms.index (probeOffSeq ms h n) = 0 ∧
      (∀ m, m < n → ¬ probeStop ms h (probeOffSeq ms h m)) ∧
      ms.max + 1 < ms.size ∧
      r = (ms.max + 1, msAfterAdd ms h (probeOffSeq ms h n))) := by
  unfold modsetIndexFind at hrun
  rcases hloop : probeLoop ms h ms.tableSize (h &&& ms.tableMask) with _ | off
  · rw [hloop] at hrun; exact absurd hrun (by simp)
  · rw [hloop, Option.some_bind] at hrun
    have h0 : (h &&& ms.tableMask) = probeOffSeq ms h 0 := rfl
    rw [h0] at hloop
    obtain ⟨j, hoff, hstop, hpre⟩ := probeLoop_sound ms h ms.tableSize 0 off hloop
    simp only [Nat.zero_add] at hoff hpre
    have hjlt : j < ms.tableSize := by
      by_contra hge
      push_neg at hge
      obtain ⟨n0, hn0lt, hn0⟩ := exists_empty_probe ms inv.geom h (inv_occ_lt ms inv)
      exact hpre n0 (by omega) (Or.inl hn0)
    by_cases hidx0 : ms.index off = 0
    · rw [if_pos ⟨hidx0, rfl⟩] at hrun
      by_cases hroom : ms.max + 1 ≥ ms.size
      · rw [if_pos hroom] at hrun; exact absurd hrun (by simp)
      · rw [if_neg hroom] at hrun
        right
        refine ⟨j, hjlt, by rw [← hoff]; exact hidx0, hpre, by omega, ?_⟩
        rw [Option.some_inj] at hrun
        rw [← hrun, ← hoff]
        rfl
    · rw [if_neg (by intro hc; exact hidx0 hc.1)] at hrun
      left
      rw [Option.some_inj] at hrun
      have hoffl : off < ms.tableSize := hoff ▸ probeOffSeq_lt ms inv.geom h j
      have hle : ms.index off ≤ ms.max := inv.idxle off hoffl
      have hval : ms.value (ms.index off) = h := by
        rcases hstop with hc | hc
        · exact absurd hc hidx0
        · exact hc
      refine ⟨?_, by rw [← hrun]; omega, by rw [← hrun]; simpa using hle, by rw [← hrun]; simpa using hval⟩
      rw [← hrun]

/-- A non-stopping slot of the old table still does not stop in the
extended table (for the same hash or any hash the old slot missed). -/
theorem probeStop_preserved (ms : Modset) (inv : ModsetInv ms) (h hash off offE : Nat)
    (hoff : off < ms.tableSize) (hempty : ms.index offE = 0)
    (hidx : ms.index off ≠ 0) (hval : ms.value (ms.index off) ≠ hash) :
    ¬ probeStop (msAfterAdd ms h offE) hash off := by
  have hne : off ≠ offE := by
    intro hc; rw [hc, hempty] at hidx; exact hidx rfl
  have hidx2 : (msAfterAdd ms h offE).index off = ms.index off := by
    show Function.update ms.index offE (ms.max + 1) off = ms.index off
    exact Function.update_noteq hne _ _
  have hle : ms.index off ≤ ms.max := inv.idxle off hoff
  have hval2 : (msAfterAdd ms h offE).value (ms.index off) = ms.value (ms.index off) := by
    show Function.update ms.value (ms.max + 1) h (ms.index off) = ms.value (ms.index off)
    exact Function.update_noteq (by omega) _ _
  intro hstop
  rcases hstop with hc | hc
  · rw [hidx2] at hc; exact hidx hc
  · rw [hidx2, hval2] at hc; exact hval hc

theorem not_probeStop_parts (ms : Modset) (hash off : Nat)
    (hns : ¬ probeStop ms hash off) :
    ms.index off ≠ 0 ∧ ms.value (ms.index off) ≠ hash := by
  unfold probeStop at hns
  push_neg at hns
  exact hns

/-- Find-or-add preserves the modset invariant. -/
theorem modsetInv_add (ms : Modset) (inv : ModsetInv ms) (h j : Nat) (ms2 : Modset)
    (hrun : modsetIndexFind ms h true = some (j, ms2)) : ModsetInv ms2 := by
  rcases modsetIndexFind_add_cases ms inv h (j, ms2) hrun with ⟨hr, _, _, _⟩ | hfresh
  · have : ms2 = ms := congrArg Prod.snd hr
    rw [this]
    exact inv
  · obtain ⟨n, hnlt, hempty, hpre, hroom, hr⟩ := hfresh
    have hms2 : ms2 = msAfterAdd ms h (probeOffSeq ms h n) := congrArg Prod.snd hr
    subst hms2
    have hofflt : probeOffSeq ms h n < ms.tableSize := probeOffSeq_lt ms inv.geom h n
    refine ⟨inv.geom, inv.bitslo, inv.bitshi, hroom, inv.sizecap, ?_, ?_, ?_⟩
    · intro off hoff
      show Function.update ms.index (probeOffSeq ms h n) (ms.max + 1) off ≤ ms.max + 1
      rcases eq_or_ne off (probeOffSeq ms h n) with rfl | hne
      · rw [Function.update_same]
      · rw [Function.update_noteq hne]
        have := inv.idxle off hoff
        omega
    · show (Finset.filter
          (fun off => Function.update ms.index (probeOffSeq ms h n) (ms.max + 1) off ≠ 0)
          (Finset.range ms.tableSize)).card ≤ ms.max + 1
      have hsub : Finset.filter
          (fun off => Function.update ms.index (probeOffSeq ms h n) (ms.max + 1) off ≠ 0)
          (Finset.range ms.tableSize) ⊆
          insert (probeOffSeq ms h n)
            (Finset.filter (fun off => ms.index off ≠ 0) (Finset.range ms.tableSize)) := by
        intro x hx
        rw [Finset.mem_filter, Finset.mem_range] at hx
        rcases eq_or_ne x (probeOffSeq ms h n) with rfl | hne
        · exact Finset.mem_insert_self _ _
        · apply Finset.mem_insert_of_mem
          rw [Finset.mem_filter, Finset.mem_range]
          rw [Function.update_noteq hne] at hx
          exact ⟨hx.1, hx.2⟩
      have h1 := Finset.card_le_card hsub
      have h2 := Finset.card_insert_le (probeOffSeq ms h n)
        (Finset.filter (fun off => ms.index off ≠ 0) (Finset.range ms.tableSize))
      have h3 := inv.occ
      omega
    · intro i hi1 hi2
      have hcongr : ∀ hash m, probeOffSeq (msAfterAdd ms h (probeOffSeq ms h n)) hash m =
          probeOffSeq ms hash m := fun hash m =>
        probeOffSeq_congr (msAfterAdd ms h (probeOffSeq ms h n)) ms hash rfl rfl m
      by_cases hiold : i ≤ ms.max
      · obtain ⟨n2, hn2, hidx2, hpre2⟩ := inv.find i hi1 hiold
        have hvali : (msAfterAdd ms h (probeOffSeq ms h n)).value i = ms.value i := by
          show Function.update ms.value (ms.max + 1) h i = ms.value i
          exact Function.update_noteq (by omega) _ _
        refine ⟨n2, by simpa using hn2, ?_, ?_⟩
        · rw [hvali, hcongr]
          have hneq : probeOffSeq ms (ms.value i) n2 ≠ probeOffSeq ms h n := by
            intro hc
            rw [hc, hempty] at hidx2
            omega
          show Function.update ms.index (probeOffSeq ms h n) (ms.max + 1)
            (probeOffSeq ms (ms.value i) n2) = i
          rw [Function.update_noteq hneq]
          exact hidx2
        · intro m hm
          rw [hvali, hcongr]
          obtain ⟨ha, hb⟩ := not_probeStop_parts ms (ms.value i) _ (hpre2 m hm)
          exact probeStop_preserved ms inv h (ms.value i) _ _
            (probeOffSeq_lt ms inv.geom _ m) hempty ha hb
      · have hieq : i = ms.max + 1 := by
          have : i ≤ (msAfterAdd ms h (probeOffSeq ms h n)).max := hi2
          have : i ≤ ms.max + 1 := this
          omega
        subst hieq
        have hvali : (msAfterAdd ms h (probeOffSeq ms h n)).value (ms.max + 1) = h := by
          show Function.update ms.value (ms.max + 1) h (ms.max + 1) = h
          exact Function.update_same _ _ _
        refine ⟨n, by simpa using hnlt, ?_, ?_⟩
        · rw [hvali, hcongr]
          show Function.update ms.index (probeOffSeq ms h n) (ms.max + 1)
            (probeOffSeq ms h n) = ms.max + 1
          exact Function.update_same _ _ _
        · intro m hm
          rw [hvali, hcongr]
          obtain ⟨ha, hb⟩ := not_probeStop_parts ms h _ (hpre m hm)
          exact probeStop_preserved ms inv h h _ _
            (probeOffSeq_lt ms inv.geom _ m) hempty ha hb

theorem modsetInv_create (sh : Seqhash) (bits size : Nat) (ms : Modset)
    (hrun : modsetCreate sh bits size = some ms) : ModsetInv ms := by
  unfold modsetCreate at hrun
  by_cases h1 : bits < 20 ∨ 34 < bits
  · rw [if_pos h1] at hrun; exact absurd hrun (by simp)
  · rw [if_neg h1] at hrun
    by_cases h2 : (2 ^ bits) >>> 2 ≤ size
    · rw [if_pos h2] at hrun; exact absurd hrun (by simp)
    · rw [if_neg h2] at hrun
      rw [Option.some_inj] at hrun
      subst hrun
      push_neg at h1 h2
      have hpow : (2 : Nat) ^ 20 ≤ 2 ^ bits := Nat.pow_le_pow_right (by norm_num) h1.1
      have hshift : (2 : Nat) ^ bits >>> 2 = 2 ^ bits / 4 := by
        rw [Nat.shiftRight_eq_div_pow]
      have h20 : (2 : Nat) ^ 20 = 1048576 := by norm_num
      refine ⟨⟨rfl, rfl⟩, h1.1, h1.2, ?_, ?_, ?_, ?_, ?_⟩
      · show 0 < if size ≠ 0 then size else (2 ^ bits) >>> 2 - 1
        by_cases hs : size ≠ 0
        · rw [if_pos hs]; omega
        · rw [if_neg hs]; omega
      · show (if size ≠ 0 then size else (2 ^ bits) >>> 2 - 1) ≤ (2 ^ bits) >>> 2 - 1
        by_cases hs : size ≠ 0
        · rw [if_pos hs]; omega
        · rw [if_neg hs]
      · intro off _
        exact Nat.le_refl 0
      · simp
      · intro i hi1 hi2
        simp only at hi2
        omega

/-- The invariant only involves the geometry, and the index, value and max
fields within bounds; it transfers along in-bounds agreement on those. -/
theorem modsetInv_transfer (ms2 ms : Modset) (inv : ModsetInv ms)
    (hb : ms2.tableBits = ms.tableBits) (hts : ms2.tableSize = ms.tableSize)
    (hmk : ms2.tableMask = ms.tableMask)
    (hidx : ∀ off, off < ms.tableSize → ms2.index off = ms.index off)
    (hval : ∀ i, 1 ≤ i → i ≤ ms.max → ms2.value i = ms.value i)
    (hmax : ms2.max = ms.max)
    (hms : ms2.max < ms2.size) (hsc : ms2.size ≤ ms2.tableSize >>> 2 - 1) :
    ModsetInv ms2 := by
  refine ⟨⟨?_, ?_⟩, ?_, ?_, hms, hsc, ?_, ?_, ?_⟩
  · rw [hts, hb]; exact inv.geom.1
  · rw [hmk, hts]; exact inv.geom.2
  · rw [hb]; exact inv.bitslo
  · rw [hb]; exact inv.bitshi
  · intro off hoff
    rw [hts] at hoff
    rw [hidx off hoff, hmax]
    exact inv.idxle off hoff
  · rw [hts, hmax]
    have hfe : Finset.filter (fun off => ms2.index off ≠ 0) (Finset.range ms.tableSize) =
        Finset.filter (fun off => ms.index off ≠ 0) (Finset.range ms.tableSize) := by
      apply Finset.filter_congr
      intro x hx
      rw [Finset.mem_range] at hx
      rw [hidx x hx]
    rw [hfe]
    exact inv.occ
  · intro i h1 h2
    rw [hmax] at h2
    obtain ⟨n, hn, hidx2, hpre⟩ := inv.find i h1 h2
    have hoffn : ∀ m, probeOffSeq ms2 (ms.value i) m = probeOffSeq ms (ms.value i) m :=
      probeOffSeq_congr ms2 ms _ hmk hb
    refine ⟨n, by rw [hts]; exact hn, ?_, ?_⟩
    · rw [hval i h1 h2, hoffn]
      rw [hidx _ (probeOffSeq_lt ms inv.geom _ n)]
      exact hidx2
    · intro m hm
      rw [hval i h1 h2, hoffn]
      have hofflt := probeOffSeq_lt ms inv.geom (ms.value i) m
      obtain ⟨ha, hb2⟩ := not_probeStop_parts ms (ms.value i) _ (hpre m hm)
      intro hstop
      rcases hstop with hc | hc
      · rw [hidx _ hofflt] at hc
        exact ha hc
      · rw [hidx _ hofflt] at hc
        have hidxle := inv.idxle _ hofflt
        rw [hval _ (by omega) hidxle] at hc
        exact hb2 hc

/-- The invariant ignores the depth and info arrays. -/
theorem modsetInv_reinfo (ms : Modset) (inv : ModsetInv ms) (d2 i2 : Nat → Nat) :
    ModsetInv { ms with depth := d2, info := i2 } :=
  modsetInv_transfer _ ms inv rfl rfl rfl (fun _ _ => rfl) (fun _ _ _ => rfl) rfl
    inv.maxsize inv.sizecap

/-- Option-valued left folds preserve step-preserved predicates. -/
theorem foldlM_option_inv {α : Type} (P : Modset → Prop) (step : Modset → α → Option Modset)
    (hstep : ∀ a x b, P a → step a x = some b → P b) :
    ∀ (l : List α) (a b : Modset), P a → l.foldlM step a = some b → P b := by
  intro l
  induction l with
  | nil =>
    intro a b hP hrun
    rw [List.foldlM_nil] at hrun
    have : a = b := by simpa using hrun
    rwa [← this]
  | cons x xs ih =>
    intro a b hP hrun
    rw [List.foldlM_cons] at hrun
    rcases hs : step a x with _ | a2
    · rw [hs] at hrun
      exact absurd hrun (by simp)
    · rw [hs] at hrun
      exact ih a2 b (hstep a x a2 hP hs) (by simpa using hrun)

theorem pruneStep_inv (dmin dmax : Nat) (a : Modset) (x : Nat) (b : Modset)
    (hP : ModsetInv a) (hrun : pruneStep dmin dmax a x = some b) : ModsetInv b := by
  unfold pruneStep at hrun
  by_cases hc : dmin ≤ a.depth x ∧ (dmax = 0 ∨ a.depth x < dmax)
  · rw [if_pos hc] at hrun
    rw [Option.map_eq_some'] at hrun
    obtain ⟨r, hr1, hr2⟩ := hrun
    have : ModsetInv r.2 := modsetInv_add a hP (a.value x) r.1 r.2 hr1
    rw [← hr2]
    exact modsetInv_reinfo r.2 this _ _
  · rw [if_neg hc] at hrun
    rw [Option.some_inj] at hrun
    rwa [← hrun]

theorem mergeStep_inv (ms2 : Modset) (a : Modset) (x : Nat) (b : Modset)
    (hP : ModsetInv a) (hrun : mergeStep ms2 a x = some b) : ModsetInv b := by
  unfold mergeStep at hrun
  rw [Option.map_eq_some'] at hrun
  obtain ⟨r, hr1, hr2⟩ := hrun
  have : ModsetInv r.2 := modsetInv_add a hP (ms2.value x) r.1 r.2 hr1
  rw [← hr2]
  exact modsetInv_reinfo r.2 this _ _

theorem modsetInv_prune (ms : Modset) (inv : ModsetInv ms) (a b : Nat) (ms2 : Modset)
    (hrun : modsetDepthPrune ms a b = some ms2) : ModsetInv ms2 := by
  unfold modsetDepthPrune at hrun
  have hbase : ModsetInv { ms with index := fun _ => 0, max := 0 } := by
    refine ⟨inv.geom, inv.bitslo, inv.bitshi, ?_, inv.sizecap, ?_, ?_, ?_⟩
    · have := inv.maxsize; show 0 < ms.size; omega
    · intro off _; exact Nat.le_refl 0
    · have hemp : Finset.filter
          (fun off => ({ ms with index := fun _ => (0 : Nat), max := 0 } : Modset).index off ≠ 0)
          (Finset.range ({ ms with index := fun _ => (0 : Nat), max := 0 } : Modset).tableSize) =
          ∅ :=
        Finset.filter_eq_empty_iff.mpr (fun x _ => fun hc => hc rfl)
      rw [hemp]
      exact Nat.le_refl 0
    · intro i hi1 hi2; simp only at hi2; omega
  exact foldlM_option_inv ModsetInv (pruneStep a b) (pruneStep_inv a b) _ _ ms2 hbase hrun

theorem modsetInv_merge (ms1 msB : Modset) (inv1 : ModsetInv ms1) (fl : Bool) (msf : Modset)
    (hrun : modsetMerge ms1 msB = some (fl, msf)) : ModsetInv msf := by
  unfold modsetMerge at hrun
  by_cases hc : ms1.hasher.w ≠ msB.hasher.w ∨ ms1.hasher.k ≠ msB.hasher.k ∨
      ms1.hasher.factor1 ≠ msB.hasher.factor1
  · rw [if_pos hc] at hrun
    rw [Option.some_inj] at hrun
    have : msf = ms1 := (Prod.mk.injEq _ _ _ _ ▸ hrun).2.symm
    rwa [this]
  · rw [if_neg hc] at hrun
    simp only [Option.map_eq_some'] at hrun
    obtain ⟨msf2, hfold, heq⟩ := hrun
    have hmsf : msf2 = msf := (Prod.mk.injEq _ _ _ _ ▸ heq).2
    rw [← hmsf]
    set newSize0 := ms1.max + msB.max + 1 with hns0
    have hbase : ModsetInv { ms1 with size :=
        if ms1.tableSize >>> 2 ≤ newSize0 then ms1.tableSize >>> 2 - 1 else newSize0 } := by
      have hms := inv1.maxsize
      have hsc := inv1.sizecap
      refine modsetInv_transfer _ ms1 inv1 rfl rfl rfl (fun _ _ => rfl) (fun _ _ _ => rfl) rfl ?_ ?_
      · show ms1.max < if ms1.tableSize >>> 2 ≤ newSize0 then ms1.tableSize >>> 2 - 1 else newSize0
        by_cases hcap : ms1.tableSize >>> 2 ≤ newSize0
        · rw [if_pos hcap]; omega
        · rw [if_neg hcap]; omega
      · show (if ms1.tableSize >>> 2 ≤ newSize0 then ms1.tableSize >>> 2 - 1 else newSize0) ≤
          ms1.tableSize >>> 2 - 1
        by_cases hcap : ms1.tableSize >>> 2 ≤ newSize0
        · rw [if_pos hcap]
        · rw [if_neg hcap]; omega
    exact foldlM_option_inv ModsetInv (mergeStep msB) (mergeStep_inv msB) _ _ msf2 hbase hfold

theorem getD_map_range (f : Nat → Nat) (n i : Nat) (h : i < n) :
    ((List.range n).map f).getD i 0 = f i := by
  unfold List.getD
  rw [List.get?_eq_getElem?, List.getElem?_map, List.getElem?_range h]
  rfl

/-- Reading back a written stream succeeds and yields msReadResult. -/
theorem modsetRead_write_eq (ms : Modset)
    (hb1 : 20 ≤ ms.tableBits) (hb2 : ms.tableBits ≤ 34) (hgeom : TableGeom ms)
    (hcap : ms.max + 1 < (2 ^ ms.tableBits) >>> 2) :
    modsetRead (modsetWrite ms) = some (msReadResult ms) := by
  have hw : modsetWrite ms = modsetMagic :: ms.tableBits :: (ms.max + 1) ::
      (seqhashWriteList ms.hasher ++ msTail ms) := by
    unfold modsetWrite msTail
    simp [List.append_assoc]
  rw [hw]
  unfold modsetRead
  rw [if_neg (by simp [seqhashWriteList])]
  have hdrop3 : (modsetMagic :: ms.tableBits :: (ms.max + 1) ::
      (seqhashWriteList ms.hasher ++ msTail ms)).drop 3 =
      seqhashWriteList ms.hasher ++ msTail ms := rfl
  rw [hdrop3]
  have hsh : seqhashReadList (seqhashWriteList ms.hasher ++ msTail ms) =
      some (seqhashRT ms.hasher, msTail ms) := by
    unfold seqhashReadList seqhashWriteList
    rw [if_neg (by simp)]
    rfl
  rw [hsh]
  simp only [Option.some_bind, List.getD_cons_succ, List.getD_cons_zero]
  have hcreate : modsetCreate (seqhashRT ms.hasher) ms.tableBits (ms.max + 1) =
      some (msCreatedRT ms) := by
    unfold modsetCreate msCreatedRT
    rw [if_neg (by omega), if_neg (by omega)]
    rw [Option.some_inj]
    have hnz : (ms.max + 1 ≠ 0) = True := by simp
    simp only [hnz, if_true]
  rw [hcreate]
  simp only [Option.some_bind]
  have hlen : (msTail ms).length = ms.tableSize + 3 * (ms.max + 1) := by
    unfold msTail
    simp
    ring
  have hnotshort : ¬ ((msTail ms).length < (msCreatedRT ms).tableSize + 3 * (ms.max + 1)) := by
    rw [hlen]
    have : (msCreatedRT ms).tableSize = 2 ^ ms.tableBits := rfl
    rw [this, ← hgeom.1]
    omega
  rw [if_neg hnotshort]
  rfl

/-- Write-then-read reproduces the modset on the hasher fields, max, the
whole index table and the per-id arrays up to max. -/
theorem modsetWrite_read (ms : Modset)
    (hb1 : 20 ≤ ms.tableBits) (hb2 : ms.tableBits ≤ 34) (hgeom : TableGeom ms)
    (hcap : ms.max + 1 < (2 ^ ms.tableBits) >>> 2) :
    ∃ msR, modsetRead (modsetWrite ms) = some msR ∧
      msR.hasher.seed = ms.hasher.seed ∧ msR.hasher.k = ms.hasher.k ∧
      msR.hasher.w = ms.hasher.w ∧ msR.hasher.mask = ms.hasher.mask ∧
      msR.hasher.shift1 = ms.hasher.shift1 ∧ msR.hasher.shift2 = ms.hasher.shift2 ∧
      msR.hasher.factor1 = ms.hasher.factor1 ∧ msR.hasher.factor2 = ms.hasher.factor2 ∧
      (∀ b, b < 4 → msR.hasher.patternRC b = ms.hasher.patternRC b) ∧
      msR.max = ms.max ∧ msR.tableBits = ms.tableBits ∧
      msR.tableSize = ms.tableSize ∧ msR.tableMask = ms.tableMask ∧
      msR.size = ms.max + 1 ∧
      (∀ off, off < ms.tableSize → msR.index off = ms.index off) ∧
      (∀ i, i ≤ ms.max → msR.value i = ms.value i ∧ msR.depth i = ms.depth i ∧
        msR.info i = ms.info i) := by
  have hL1len : ((List.range ms.tableSize).map ms.index).length = ms.tableSize := by simp
  have hL2len : ((List.range (ms.max + 1)).map ms.value).length = ms.max + 1 := by simp
  have hL3len : ((List.range (ms.max + 1)).map ms.depth).length = ms.max + 1 := by simp
  have htake1 : (msTail ms).take (2 ^ ms.tableBits) = (List.range ms.tableSize).map ms.index := by
    unfold msTail
    rw [← hgeom.1]
    exact List.take_left' hL1len
  have hdropA : (msTail ms).drop (2 ^ ms.tableBits) =
      (List.range (ms.max + 1)).map ms.value ++
        ((List.range (ms.max + 1)).map ms.depth ++ (List.range (ms.max + 1)).map ms.info) := by
    unfold msTail
    rw [← hgeom.1]
    exact List.drop_left' hL1len
  have hdropB : ((List.range (ms.max + 1)).map ms.value ++
      ((List.range (ms.max + 1)).map ms.depth ++
        (List.range (ms.max + 1)).map ms.info)).drop (ms.max + 1) =
      (List.range (ms.max + 1)).map ms.depth ++ (List.range (ms.max + 1)).map ms.info :=
    List.drop_left' hL2len
  have hdropC : ((List.range (ms.max + 1)).map ms.depth ++
      (List.range (ms.max + 1)).map ms.info).drop (ms.max + 1) =
      (List.range (ms.max + 1)).map ms.info :=
    List.drop_left' hL3len
  refine ⟨msReadResult ms, modsetRead_write_eq ms hb1 hb2 hgeom hcap,
    rfl, rfl, rfl, rfl, rfl, rfl, rfl, rfl, ?_, ?_, rfl, hgeom.1.symm, ?_, rfl, ?_, ?_⟩
  · intro b hb
    show (if b = 0 then ms.hasher.patternRC 0 else if b = 1 then ms.hasher.patternRC 1
      else if b = 2 then ms.hasher.patternRC 2
      else if b = 3 then ms.hasher.patternRC 3 else 0) = ms.hasher.patternRC b
    interval_cases b <;> simp
  · show ms.max + 1 - 1 = ms.max
    omega
  · show (2 : Nat) ^ ms.tableBits - 1 = ms.tableMask
    rw [hgeom.2, hgeom.1]
  · intro off hoff
    show ((msTail ms).take (2 ^ ms.tableBits)).getD off 0 = ms.index off
    rw [htake1]
    exact getD_map_range ms.index ms.tableSize off hoff
  · intro i hi
    refine ⟨?_, ?_, ?_⟩
    · show (((msTail ms).drop (2 ^ ms.tableBits)).take (ms.max + 1)).getD i 0 = ms.value i
      rw [hdropA, List.take_left' hL2len]
      exact getD_map_range ms.value (ms.max + 1) i (by omega)
    · show ((((msTail ms).drop (2 ^ ms.tableBits)).drop (ms.max + 1)).take
        (ms.max + 1)).getD i 0 = ms.depth i
      rw [hdropA, hdropB, List.take_left' hL3len]
      exact getD_map_range ms.depth (ms.max + 1) i (by omega)
    · show (((((msTail ms).drop (2 ^ ms.tableBits)).drop (ms.max + 1)).drop
        (ms.max + 1)).take (ms.max + 1)).getD i 0 = ms.info i
      rw [hdropA, hdropB, hdropC, List.take_of_length_le (by simp)]
      exact getD_map_range ms.info (ms.max + 1) i (by omega)

/-- Every modset built by the public operations satisfies the invariant. -/
theorem modsetBuilt_inv (ms : Modset) (hB : ModsetBuilt ms) : ModsetInv ms := by
  induction hB with
  | create sh bits size ms hrun => exact modsetInv_create sh bits size ms hrun
  | findAdd ms h j ms2 _ hrun ih => exact modsetInv_add ms ih h j ms2 hrun
  | prune ms a b ms2 _ hrun ih => exact modsetInv_prune ms ih a b ms2 hrun
  | merge ms msB fl ms2 _ hrun ih => exact modsetInv_merge ms msB ih fl ms2 hrun
  | readBack ms ms2 _ hrun ih =>
    have hgeom := ih.geom
    have hcap : ms.max + 1 < (2 ^ ms.tableBits) >>> 2 := by
      have h1 := ih.maxsize
      have h2 := ih.sizecap
      have hts := inv_ts_big ms ih
      have hdiv := inv_shift_div ms
      have h20 : (2 : Nat) ^ 20 = 1048576 := by norm_num
      rw [← hgeom.1]
      omega
    obtain ⟨msR, hread2, _, _, _, _, _, _, _, _, _, hmax2, hbits2, hts2, hmk2, hsize2,
      hidx2, hvdi⟩ := modsetWrite_read ms ih.bitslo ih.bitshi hgeom hcap
    rw [hrun] at hread2
    have hmsR : ms2 = msR := Option.some_inj.mp hread2
    subst hmsR
    refine modsetInv_transfer ms2 ms ih hbits2 hts2 hmk2 hidx2
      (fun i hi1 hi2 => (hvdi i hi2).1) hmax2 ?_ ?_
    · rw [hmax2, hsize2]
      omega
    · rw [hsize2, hts2]
      have h2 := ih.sizecap
      have h1 := ih.maxsize
      omega

/-- Under the invariant, find-or-add with room to spare never fails. -/
theorem modsetIndexFind_total (ms : Modset) (inv : ModsetInv ms) (h : Nat)
    (hroom : ms.max + 1 < ms.size) :
    ∃ r, modsetIndexFind ms h true = some r := by
  obtain ⟨n0, hn0lt, hn0⟩ := exists_empty_probe ms inv.geom h (inv_occ_lt ms inv)
  have hex : ∃ n, probeStop ms h (probeOffSeq ms h n) := ⟨n0, Or.inl hn0⟩
  have hstop := Nat.find_spec hex
  have hmin : ∀ m, m < Nat.find hex → ¬ probeStop ms h (probeOffSeq ms h m) :=
    fun m hm => Nat.find_min hex hm
  have hle : Nat.find hex ≤ n0 := Nat.find_min' hex (Or.inl hn0)
  have hloop := probeLoop_eq ms h (Nat.find hex) ms.tableSize 0 (by omega)
    (by intro m hm; simpa using hmin m hm) (by simpa using hstop)
  simp only [Nat.zero_add] at hloop
  unfold modsetIndexFind
  have h0 : (h &&& ms.tableMask) = probeOffSeq ms h 0 := rfl
  rw [h0, hloop, Option.some_bind]
  by_cases hidx : ms.index (probeOffSeq ms h (Nat.find hex)) = 0 ∧ (true : Bool) = true
  · rw [if_pos hidx, if_neg (by omega)]
    exact ⟨_, rfl⟩
  · rw [if_neg hidx]
    exact ⟨_, rfl⟩

/-- Stored hashes are distinct across ids. -/
theorem modset_value_inj (ms : Modset) (inv : ModsetInv ms) (i i2 : Nat)
    (h1 : 1 ≤ i) (h2 : i ≤ ms.max) (h1b : 1 ≤ i2) (h2b : i2 ≤ ms.max)
    (hv : ms.value i = ms.value i2) : i = i2 := by
  have ha := modsetIndexFind_value ms inv i h1 h2 false
  have hb := modsetIndexFind_value ms inv i2 h1b h2b false
  rw [hv] at ha
  have : (i, ms) = (i2, ms) := Option.some_inj.mp (ha.symm.trans hb)
  exact congrArg Prod.fst this

theorem getD_append_lt {α : Type} (l1 l2 : List α) (d : α) (i : Nat) (h : i < l1.length) :
    (l1 ++ l2).getD i d = l1.getD i d := by
  unfold List.getD
  rw [List.get?_eq_getElem?, List.get?_eq_getElem?, List.getElem?_append_left h]

theorem getD_concat_length {α : Type} (l1 : List α) (x d : α) :
    (l1 ++ [x]).getD l1.length d = x := by
  unfold List.getD
  rw [List.get?_eq_getElem?, List.getElem?_concat_length]
  rfl

theorem range'_one_concat (t : Nat) :
    List.range' 1 (t + 1) = List.range' 1 t ++ [t + 1] := by
  rw [List.range'_concat]
  congr 1
  congr 1
  omega

theorem pruneSurvivors_succ (ms : Modset) (a b t : Nat) :
    pruneSurvivors ms a b (t + 1) = pruneSurvivors ms a b t ++
      (if a ≤ ms.depth (t + 1) ∧ (b = 0 ∨ ms.depth (t + 1) < b) then [t + 1] else []) := by
  unfold pruneSurvivors
  rw [range'_one_concat, List.filter_append]
  congr 1
  by_cases hp : a ≤ ms.depth (t + 1) ∧ (b = 0 ∨ ms.depth (t + 1) < b)
  · rw [if_pos hp]
    simp [hp]
  · rw [if_neg hp]
    simp [hp]

theorem modsetInv_zeroed (ms : Modset) (inv : ModsetInv ms) :
    ModsetInv { ms with index := fun _ => 0, max := 0 } := by
  refine ⟨inv.geom, inv.bitslo, inv.bitshi, ?_, inv.sizecap, ?_, ?_, ?_⟩
  · have := inv.maxsize; show 0 < ms.size; omega
  · intro off _; exact Nat.le_refl 0
  · have hemp : Finset.filter
        (fun off => ({ ms with index := fun _ => (0 : Nat), max := 0 } : Modset).index off ≠ 0)
        (Finset.range ({ ms with index := fun _ => (0 : Nat), max := 0 } : Modset).tableSize) =
        ∅ :=
      Finset.filter_eq_empty_iff.mpr (fun x _ => fun hc => hc rfl)
    rw [hemp]
    exact Nat.le_refl 0
  · intro i hi1 hi2; simp only at hi2; omega

/-- The prune loop invariant holds after every prefix of the loop. -/
theorem prune_fold_ok (ms : Modset) (inv : ModsetInv ms) (a b : Nat) :
    ∀ t, t ≤ ms.max →
      ∃ st, (List.range' 1 t).foldlM (pruneStep a b)
          { ms with index := fun _ => 0, max := 0 } = some st ∧ PruneFoldOK ms a b t st := by
  intro t
  induction t with
  | zero =>
    intro _
    refine ⟨{ ms with index := fun _ => 0, max := 0 }, by simp [List.foldlM_nil], ?_⟩
    refine ⟨modsetInv_zeroed ms inv, rfl, rfl, rfl, rfl, by simp [pruneSurvivors], le_rfl,
      ?_, ?_⟩
    · intro j h1 h2
      simp only at h2
      omega
    · intro i _
      exact ⟨rfl, rfl, rfl⟩
  | succ t ih =>
    intro hlt
    obtain ⟨st, hfold, hok⟩ := ih (by omega)
    have hval : st.value (t + 1) = ms.value (t + 1) := (hok.pres (t + 1) (by omega)).1
    have hdep : st.depth (t + 1) = ms.depth (t + 1) := (hok.pres (t + 1) (by omega)).2.1
    have hinf : st.info (t + 1) = ms.info (t + 1) := (hok.pres (t + 1) (by omega)).2.2
    by_cases hpred : a ≤ ms.depth (t + 1) ∧ (b = 0 ∨ ms.depth (t + 1) < b)
    · -- id t+1 survives: a fresh add happens
      have hcond : a ≤ st.depth (t + 1) ∧ (b = 0 ∨ st.depth (t + 1) < b) := by
        rw [hdep]; exact hpred
      have hroomst : st.max + 1 < st.size := by
        have h1 := hok.maxle
        have h2 := inv.maxsize
        rw [hok.hsize]
        omega
      obtain ⟨r, hfind⟩ := modsetIndexFind_total st hok.inv (st.value (t + 1)) hroomst
      rcases modsetIndexFind_add_cases st hok.inv _ r hfind with
        ⟨hreq, hr1, hr2, hrv⟩ | ⟨n, hnlt, hempty, hpre, hroom2, hreq⟩
      · -- found an existing id with the same hash: impossible, values are distinct
        exfalso
        obtain ⟨ho1, ho2, ho3, hov, _, _⟩ := hok.oldid r.1 hr1 hr2
        rw [hval] at hrv
        rw [hov] at hrv
        have := modset_value_inj ms inv
          ((pruneSurvivors ms a b t).getD (r.1 - 1) 0) (t + 1)
          ho3 (by omega) (by omega) (by omega) hrv
        omega
      · have hsurv : pruneSurvivors ms a b (t + 1) =
            pruneSurvivors ms a b t ++ [t + 1] := by
          rw [pruneSurvivors_succ, if_pos hpred]
        refine ⟨{ st with
            index := Function.update st.index
              (probeOffSeq st (st.value (t + 1)) n) (st.max + 1),
            value := Function.update st.value (st.max + 1) (st.value (t + 1)),
            max := st.max + 1,
            info := Function.update st.info (st.max + 1) (st.info (t + 1)),
            depth := Function.update st.depth (st.max + 1) (st.depth (t + 1)) }, ?_, ?_⟩
        · rw [range'_one_concat, List.foldlM_append, hfold]
          have hstep : pruneStep a b st (t + 1) = some { st with
              index := Function.update st.index
                (probeOffSeq st (st.value (t + 1)) n) (st.max + 1),
              value := Function.update st.value (st.max + 1) (st.value (t + 1)),
              max := st.max + 1,
              info := Function.update st.info (st.max + 1) (st.info (t + 1)),
              depth := Function.update st.depth (st.max + 1) (st.depth (t + 1)) } := by
            unfold pruneStep
            rw [if_pos hcond, hfind, hreq]
            rfl
          simp [List.foldlM_cons, List.foldlM_nil, hstep]
        · have hstepinv : ModsetInv { st with
              index := Function.update st.index
                (probeOffSeq st (st.value (t + 1)) n) (st.max + 1),
              value := Function.update st.value (st.max + 1) (st.value (t + 1)),
              max := st.max + 1,
              info := Function.update st.info (st.max + 1) (st.info (t + 1)),
              depth := Function.update st.depth (st.max + 1) (st.depth (t + 1)) } := by
            have : ModsetInv (msAfterAdd st (st.value (t + 1))
                (probeOffSeq st (st.value (t + 1)) n)) := by
              apply modsetInv_add st hok.inv (st.value (t + 1)) (st.max + 1)
              rw [hfind, hreq]
            exact modsetInv_reinfo _ this _ _
          refine ⟨hstepinv, hok.tbits, hok.tsize, hok.tmask, hok.hsize, ?_, ?_, ?_, ?_⟩
          · show st.max + 1 = (pruneSurvivors ms a b (t + 1)).length
            rw [hsurv, List.length_append, ← hok.maxeq]
            rfl
          · show st.max + 1 ≤ t + 1
            have := hok.maxle
            omega
          · intro j h1 h2
            simp only at h2
            rcases Nat.lt_or_ge j (st.max + 1) with hj | hj
            · obtain ⟨ho1, ho2, ho3, hov, hod, hoi⟩ := hok.oldid j h1 (by omega)
              have hgl : j - 1 < (pruneSurvivors ms a b t).length := by
                rw [← hok.maxeq]; omega
              rw [hsurv, getD_append_lt _ _ _ _ hgl]
              refine ⟨ho1, by omega, ho3, ?_, ?_, ?_⟩
              · show Function.update st.value (st.max + 1) (st.value (t + 1)) j = _
                rw [Function.update_noteq (by omega)]
                exact hov
              · show Function.update st.depth (st.max + 1) (st.depth (t + 1)) j = _
                rw [Function.update_noteq (by omega)]
                exact hod
              · show Function.update st.info (st.max + 1) (st.info (t + 1)) j = _
                rw [Function.update_noteq (by omega)]
                exact hoi
            · have hj' : j = st.max + 1 := by omega
              have hgl : j - 1 = (pruneSurvivors ms a b t).length := by
                rw [← hok.maxeq]; omega
              rw [hsurv, hgl, getD_concat_length]
              refine ⟨by have := hok.maxle; omega, le_refl _, by omega, ?_, ?_, ?_⟩
              · show Function.update st.value (st.max + 1) (st.value (t + 1)) j = _
                rw [hj', Function.update_same]
                exact hval
              · show Function.update st.depth (st.max + 1) (st.depth (t + 1)) j = _
                rw [hj', Function.update_same]
                exact hdep
              · show Function.update st.info (st.max + 1) (st.info (t + 1)) j = _
                rw [hj', Function.update_same]
                exact hinf
          · intro i hi
            have hne : i ≠ st.max + 1 := by have := hok.maxle; omega
            obtain ⟨hpv, hpd, hpi⟩ := hok.pres i (by omega)
            refine ⟨?_, ?_, ?_⟩
            · show Function.update st.value (st.max + 1) (st.value (t + 1)) i = _
              rw [Function.update_noteq hne]
              exact hpv
            · show Function.update st.depth (st.max + 1) (st.depth (t + 1)) i = _
              rw [Function.update_noteq hne]
              exact hpd
            · show Function.update st.info (st.max + 1) (st.info (t + 1)) i = _
              rw [Function.update_noteq hne]
              exact hpi
    · -- id t+1 is pruned away: the step is a no-op
      have hsurv : pruneSurvivors ms a b (t + 1) = pruneSurvivors ms a b t := by
        rw [pruneSurvivors_succ, if_neg hpred]
        simp
      have hstep : pruneStep a b st (t + 1) = some st := by
        unfold pruneStep
        rw [if_neg (by rw [hdep]; exact hpred)]
      refine ⟨st, ?_, ?_⟩
      · rw [range'_one_concat, List.foldlM_append, hfold]
        simp [List.foldlM_cons, List.foldlM_nil, hstep]
      · refine ⟨hok.inv, hok.tbits, hok.tsize, hok.tmask, hok.hsize, ?_, ?_, ?_, ?_⟩
        · rw [hsurv]; exact hok.maxeq
        · have := hok.maxle; omega
        · intro j h1 h2
          rw [hsurv]
          obtain ⟨ho1, ho2, ho3, hov, hod, hoi⟩ := hok.oldid j h1 h2
          exact ⟨ho1, by omega, ho3, hov, hod, hoi⟩
        · intro i hi
          exact hok.pres i (by omega)

/-- Full characterisation of modsetDepthPrune: it succeeds, the new max is
the number of survivors, and the new id j carries the value, depth and
info of the j-th survivor. -/
theorem modsetDepthPrune_spec (ms : Modset) (inv : ModsetInv ms) (a b : Nat) :
    ∃ ms2, modsetDepthPrune ms a b = some ms2 ∧
      ms2.max = (pruneSurvivors ms a b ms.max).length ∧
      ∀ j, 1 ≤ j → j ≤ ms2.max →
        ms2.value j = ms.value ((pruneSurvivors ms a b ms.max).getD (j - 1) 0) ∧
        ms2.depth j = ms.depth ((pruneSurvivors ms a b ms.max).getD (j - 1) 0) ∧
        ms2.info j = ms.info ((pruneSurvivors ms a b ms.max).getD (j - 1) 0) := by
  obtain ⟨st, hfold, hok⟩ := prune_fold_ok ms inv a b ms.max (le_refl _)
  refine ⟨st, hfold, hok.maxeq, ?_⟩
  intro j h1 h2
  obtain ⟨_, _, _, hov, hod, hoi⟩ := hok.oldid j h1 h2
  exact ⟨hov, hod, hoi⟩

/-- Membership in the survivor list is exactly the depth-window test. -/
theorem pruneSurvivors_mem (ms : Modset) (a b N i : Nat) :
    i ∈ pruneSurvivors ms a b N ↔
      (1 ≤ i ∧ i ≤ N ∧ a ≤ ms.depth i ∧ (b = 0 ∨ ms.depth i < b)) := by
  unfold pruneSurvivors
  rw [List.mem_filter, List.mem_range']
  constructor
  · rintro ⟨⟨m, hm, hmi⟩, hp⟩
    have hp' := of_decide_eq_true hp
    exact ⟨by omega, by omega, hp'.1, hp'.2⟩
  · rintro ⟨h1, h2, h3, h4⟩
    exact ⟨⟨i - 1, by omega, by omega⟩, decide_eq_true ⟨h3, h4⟩⟩

/-! ## Structure of the classification loop. -/

theorem classifyOne_nHit (rs : Readset) (x : Read) (hm xp : Nat → Nat) (o : Overlap) :
    (classifyOne rs x hm xp o).nHit = o.nHit := by
  unfold classifyOne finishPlus finishMinus
  split_ifs <;> rfl

theorem classifyOne_iy (rs : Readset) (x : Read) (hm xp : Nat → Nat) (o : Overlap) :
    (classifyOne rs x hm xp o).iy = o.iy := by
  unfold classifyOne finishPlus finishMinus
  split_ifs <;> rfl

theorem classifyLoop_ne_nil (rs : Readset) (x : Read) (hm xp : Nat → Nat) (l : List Overlap)
    (hl : l ≠ []) : classifyLoop rs x hm xp l ≠ [] := by
  cases l with
  | nil => exact absurd rfl hl
  | cons o rest =>
    cases rest with
    | nil => simp [classifyLoop]
    | cons o2 rest2 =>
      by_cases h3 : o.nHit < 3 <;> simp [classifyLoop, h3]

theorem classifyLoop_length (rs : Readset) (x : Read) (hm xp : Nat → Nat) :
    ∀ l : List Overlap, (classifyLoop rs x hm xp l).length =
      min l.length ((l.takeWhile (fun o => decide (3 ≤ o.nHit))).length + 1) := by
  intro l
  induction l with
  | nil => simp [classifyLoop]
  | cons o rest ih =>
    cases rest with
    | nil =>
      by_cases h3 : 3 ≤ o.nHit <;>
        simp [classifyLoop, List.takeWhile_cons, h3]
    | cons o2 rest2 =>
      by_cases h3 : o.nHit < 3
      · have h3' : ¬ 3 ≤ o.nHit := by omega
        simp [classifyLoop, h3, List.takeWhile_cons, h3']
      · have h3' : 3 ≤ o.nHit := by omega
        rw [show classifyLoop rs x hm xp (o :: o2 :: rest2) =
            classifyOne rs x hm xp o :: classifyLoop rs x hm xp (o2 :: rest2) from by
          simp [classifyLoop, h3]]
        have htw : List.takeWhile (fun o => decide (3 ≤ o.nHit)) (o :: o2 :: rest2) =
            o :: List.takeWhile (fun o => decide (3 ≤ o.nHit)) (o2 :: rest2) :=
          List.takeWhile_cons_of_pos (by simpa using h3')
        rw [List.length_cons, ih, htw]
        simp only [List.length_cons]
        omega

theorem classifyLoop_getD_examined (rs : Readset) (x : Read) (hm xp : Nat → Nat) :
    ∀ (l : List Overlap) (i : Nat), i + 1 < (classifyLoop rs x hm xp l).length →
      (classifyLoop rs x hm xp l).getD i Overlap.zero =
        classifyOne rs x hm xp (l.getD i Overlap.zero) ∧
      3 ≤ (l.getD i Overlap.zero).nHit := by
  intro l
  induction l with
  | nil => intro i hi; simp [classifyLoop] at hi
  | cons o rest ih =>
    intro i hi
    cases rest with
    | nil => simp [classifyLoop] at hi
    | cons o2 rest2 =>
      by_cases h3 : o.nHit < 3
      · simp [classifyLoop, h3] at hi
      · cases i with
        | zero =>
          simp only [classifyLoop, if_neg h3, List.getD_cons_zero]
          exact ⟨by trivial, by omega⟩
        | succ i2 =>
          have hi2 : i2 + 1 < (classifyLoop rs x hm xp (o2 :: rest2)).length := by
            simp only [classifyLoop, if_neg h3, List.length_cons] at hi
            omega
          obtain ⟨h1, h2⟩ := ih i2 hi2
          simp only [classifyLoop, if_neg h3, List.getD_cons_succ]
          exact ⟨h1, h2⟩

theorem classifyLoop_getD_nHit (rs : Readset) (x : Read) (hm xp : Nat → Nat) :
    ∀ (l : List Overlap) (i : Nat), i < (classifyLoop rs x hm xp l).length →
      ((classifyLoop rs x hm xp l).getD i Overlap.zero).nHit =
        (l.getD i Overlap.zero).nHit ∧
      ((classifyLoop rs x hm xp l).getD i Overlap.zero).iy =
        (l.getD i Overlap.zero).iy := by
  intro l
  induction l with
  | nil => intro i hi; simp [classifyLoop] at hi
  | cons o rest ih =>
    intro i hi
    cases rest with
    | nil =>
      simp only [classifyLoop, List.length_singleton] at hi
      have : i = 0 := by omega
      rw [this]
      simp [classifyLoop]
    | cons o2 rest2 =>
      by_cases h3 : o.nHit < 3
      · simp only [classifyLoop, if_pos h3, List.length_singleton] at hi
        have : i = 0 := by omega
        rw [this]
        simp [classifyLoop, h3]
      · cases i with
        | zero =>
          simp only [classifyLoop, if_neg h3, List.getD_cons_zero]
          exact ⟨classifyOne_nHit rs x hm xp o, classifyOne_iy rs x hm xp o⟩
        | succ i2 =>
          have hi2 : i2 < (classifyLoop rs x hm xp (o2 :: rest2)).length := by
            simp only [classifyLoop, if_neg h3, List.length_cons] at hi
            omega
          simp only [classifyLoop, if_neg h3, List.getD_cons_succ]
          exact ih i2 hi2

theorem classifyLoop_last (rs : Readset) (x : Read) (hm xp : Nat → Nat) :
    ∀ l : List Overlap, l.Pairwise olapGE → (∃ o ∈ l, o.nHit < 3) →
      ((classifyLoop rs x hm xp l).getD ((classifyLoop rs x hm xp l).length - 1)
        Overlap.zero).nHit < 3 := by
  intro l
  induction l with
  | nil => rintro _ ⟨o, ho, _⟩; simp at ho
  | cons o rest ih =>
    rintro hp ⟨m, hmem, hm3⟩
    cases rest with
    | nil =>
      have hmo : m = o := by simpa using hmem
      rw [hmo] at hm3
      simpa [classifyLoop] using hm3
    | cons o2 rest2 =>
      by_cases h3 : o.nHit < 3
      · simp only [classifyLoop, if_pos h3, List.length_singleton, List.getD_cons_zero]
        exact h3
      · have hm2 : m ∈ o2 :: rest2 := by
          rcases List.mem_cons.mp hmem with rfl | h
          · exact absurd hm3 h3
          · exact h
        have hrec := ih (List.Pairwise.of_cons hp) ⟨m, hm2, hm3⟩
        have hne := classifyLoop_ne_nil rs x hm xp (o2 :: rest2) (by simp)
        obtain ⟨n, hn⟩ : ∃ n, (classifyLoop rs x hm xp (o2 :: rest2)).length = n + 1 :=
          ⟨(classifyLoop rs x hm xp (o2 :: rest2)).length - 1, by
            have := List.length_pos.mpr hne
            omega⟩
        rw [hn] at hrec
        simp only [classifyLoop, if_neg h3, List.length_cons, hn, Nat.add_sub_cancel,
          List.getD_cons_succ]
        simpa using hrec

/-! ## Phase-1 invariants: the burned slot survives, and phase 1 leaves
the classification fields at their zeroed defaults. -/

theorem foldl_pres {α β : Type} (P : α → Prop) (f : α → β → α)
    (hf : ∀ a b, P a → P (f a b)) :
    ∀ (l : List β) (a : α), P a → P (l.foldl f a) := by
  intro l
  induction l with
  | nil => intro a hP; exact hP
  | cons b bs ih => intro a hP; exact ih (f a b) (hf a b hP)

theorem getD_eq_or_mem {α : Type} (l : List α) (i : Nat) (d : α) :
    l.getD i d = d ∨ l.getD i d ∈ l := by
  by_cases h : i < l.length
  · right
    rw [List.getD_eq_getElem?_getD, List.getElem?_eq_getElem h]
    exact List.getElem_mem h
  · left
    rw [List.getD_eq_getElem?_getD, List.getElem?_eq_none (by omega)]
    rfl

theorem hitStepInner_ok (st : OlapState) (r2 : Nat) (h : OlapOK st) :
    OlapOK (hitStepInner st r2) := by
  obtain ⟨hlen, hhead, hdef⟩ := h
  unfold hitStepInner
  by_cases hz : st.omap r2 = 0
  · rw [if_pos hz]
    refine ⟨by simp, ?_, ?_⟩
    · show (st.olap ++ [_]).getD 0 Overlap.zero = Overlap.zero
      rw [getD_append_lt _ _ _ _ hlen]
      exact hhead
    · intro o ho
      rcases List.mem_append.mp ho with h1 | h1
      · exact hdef o h1
      · have : o = { Overlap.zero with iy := r2, nHit := 1 } := by simpa using h1
        rw [this]
        exact ⟨rfl, rfl, rfl, rfl⟩
  · rw [if_neg hz]
    refine ⟨by simpa [bumpHit] using hlen, ?_, ?_⟩
    · show (bumpHit st.olap (st.omap r2)).getD 0 Overlap.zero = Overlap.zero
      unfold bumpHit
      unfold List.getD
      rw [List.get?_eq_getElem?, List.getElem?_set_ne (by omega)]
      rw [← List.get?_eq_getElem?]
      exact hhead
    · intro o ho
      rcases List.mem_or_eq_of_mem_set ho with h1 | h1
      · exact hdef o h1
      · rcases getD_eq_or_mem st.olap (st.omap r2) Overlap.zero with h2 | h2
        · rw [h1, h2]
          exact ⟨rfl, rfl, rfl, rfl⟩
        · obtain ⟨d1, d2, d3, d4⟩ := hdef _ h2
          rw [h1]
          exact ⟨d1, d2, d3, d4⟩

theorem hitStep_ok (rs : Readset) (x : Read) (st : OlapState) (j : Nat) (h : OlapOK st) :
    OlapOK (hitStep rs x st j) := by
  unfold hitStep copy1Step
  have hx : OlapOK (xPosStep x st j) := h
  by_cases hc : rs.isCopy1 (x.hit j &&& TOPMASK) = true
  · rw [if_pos hc]
    by_cases hh : (xPosStep x st j).hmap (x.hit j &&& TOPMASK) ≠ 0
    · rw [if_pos hh]
      exact hx
    · rw [if_neg hh]
      exact foldl_pres OlapOK _ (fun a b => hitStepInner_ok a _) _ _ hx
  · rw [if_neg hc]
    exact hx

theorem phase1_ok (rs : Readset) (x : Read) : OlapOK (phase1 rs x) := by
  unfold phase1
  exact foldl_pres OlapOK _ (hitStep_ok rs x) _ olapInit
    ⟨by simp [olapInit], rfl, by
      intro o ho
      have : o = Overlap.zero := by simpa [olapInit] using ho
      rw [this]
      exact ⟨rfl, rfl, rfl, rfl⟩⟩

theorem sortOlap_perm (l : List Overlap) : List.Perm (sortOlap l) l :=
  List.perm_insertionSort olapGE l

theorem sortOlap_sorted (l : List Overlap) : (sortOlap l).Pairwise olapGE :=
  List.sorted_insertionSort olapGE l

/-- Under the invariant, the probe walk itself never exhausts its
tableSize fuel: an empty slot lies within the first tableSize probes. -/
theorem probeLoop_total (ms : Modset) (inv : ModsetInv ms) (h : Nat) :
    ∃ off, probeLoop ms h ms.tableSize (h &&& ms.tableMask) = some off := by
  obtain ⟨n0, hn0lt, hn0⟩ := exists_empty_probe ms inv.geom h (inv_occ_lt ms inv)
  have hex : ∃ n, probeStop ms h (probeOffSeq ms h n) := ⟨n0, Or.inl hn0⟩
  have hstop := Nat.find_spec hex
  have hmin : ∀ m, m < Nat.find hex → ¬ probeStop ms h (probeOffSeq ms h m) :=
    fun m hm => Nat.find_min hex hm
  have hle : Nat.find hex ≤ n0 := Nat.find_min' hex (Or.inl hn0)
  have hloop := probeLoop_eq ms h (Nat.find hex) ms.tableSize 0 (by omega)
    (by intro m hm; simpa using hmin m hm) (by simpa using hstop)
  simp only [Nat.zero_add] at hloop
  exact ⟨_, hloop⟩

/-- A pure lookup (isAdd = false) always returns a result under the
invariant: it cannot run out of table or die. -/
theorem modsetIndexFind_lookup_total (ms : Modset) (inv : ModsetInv ms) (h : Nat) :
    ∃ r, modsetIndexFind ms h false = some r := by
  obtain ⟨off, hloop⟩ := probeLoop_total ms inv h
  unfold modsetIndexFind
  rw [hloop, Option.some_bind]
  rw [if_neg (by intro hc; exact (Bool.false_ne_true hc.2))]
  exact ⟨_, rfl⟩

/-- The witness modset is reachable by create followed by one find-or-add. -/
theorem msW_built : ModsetBuilt msW :=
  ModsetBuilt.findAdd msW0 7 1 msW (ModsetBuilt.create hashEx 20 3 msW0 rfl) rfl

/-! ## The claims. -/

/-- C1 (corrected): for every examined overlap record (index not last in
the returned array, hence nHit ≥ 3) whose read y is not bad, isPlus is
true exactly when nPlus is STRICTLY greater than nMinus — an exact tie
(nPlus = nMinus), like any case with 0 < nPlus ≤ nMinus, takes neither
branch and leaves the zeroed defaults isPlus = false, nBadFlip = 0; in
the two taken branches nBadFlip is the non-dominant count. -/
theorem overlap_orientation (rs : Readset) (x : Read) (i : Nat)
    (hex : i + 1 < (findOverlaps rs x).length)
    (hbad : (rs.reads.getD (((sortOlap (phase1 rs x).olap).getD i Overlap.zero).iy)
      default).bad = false) :
    ((findOverlaps rs x).getD i Overlap.zero).isPlus =
      decide (countMinus x (rs.reads.getD
          (((sortOlap (phase1 rs x).olap).getD i Overlap.zero).iy) default)
          (phase1 rs x).hmap <
        countPlus x (rs.reads.getD
          (((sortOlap (phase1 rs x).olap).getD i Overlap.zero).iy) default)
          (phase1 rs x).hmap) ∧
    ((findOverlaps rs x).getD i Overlap.zero).nBadFlip =
      (if countMinus x (rs.reads.getD
            (((sortOlap (phase1 rs x).olap).getD i Overlap.zero).iy) default)
            (phase1 rs x).hmap <
          countPlus x (rs.reads.getD
            (((sortOlap (phase1 rs x).olap).getD i Overlap.zero).iy) default)
            (phase1 rs x).hmap then
        countMinus x (rs.reads.getD
          (((sortOlap (phase1 rs x).olap).getD i Overlap.zero).iy) default)
          (phase1 rs x).hmap
      else if countMinus x (rs.reads.getD
            (((sortOlap (phase1 rs x).olap).getD i Overlap.zero).iy) default)
            (phase1 rs x).hmap ≠ 0 ∧
          countPlus x (rs.reads.getD
            (((sortOlap (phase1 rs x).olap).getD i Overlap.zero).iy) default)
            (phase1 rs x).hmap = 0 then
        countPlus x (rs.reads.getD
          (((sortOlap (phase1 rs x).olap).getD i Overlap.zero).iy) default)
          (phase1 rs x).hmap
      else 0) := by
  unfold findOverlaps at hex ⊢
  obtain ⟨heq, h3⟩ := classifyLoop_getD_examined rs x (phase1 rs x).hmap (phase1 rs x).xPos
    (sortOlap (phase1 rs x).olap) i hex
  have hunt : untouched ((sortOlap (phase1 rs x).olap).getD i Overlap.zero) := by
    rcases getD_eq_or_mem (sortOlap (phase1 rs x).olap) i Overlap.zero with hcase | hcase
    · rw [hcase]
      exact ⟨rfl, rfl, rfl, rfl⟩
    · exact (phase1_ok rs x).2.2 _
        ((sortOlap_perm (phase1 rs x).olap).mem_iff.mp hcase)
  rw [heq]
  unfold classifyOne
  rw [if_neg (by rw [hbad]; exact Bool.false_ne_true)]
  by_cases hcmp : countMinus x (rs.reads.getD
      (((sortOlap (phase1 rs x).olap).getD i Overlap.zero).iy) default) (phase1 rs x).hmap <
      countPlus x (rs.reads.getD
      (((sortOlap (phase1 rs x).olap).getD i Overlap.zero).iy) default) (phase1 rs x).hmap
  · rw [if_pos hcmp, if_pos hcmp]
    exact ⟨(decide_eq_true hcmp).symm, rfl⟩
  · rw [if_neg hcmp, if_neg hcmp]
    by_cases hmz : countMinus x (rs.reads.getD
        (((sortOlap (phase1 rs x).olap).getD i Overlap.zero).iy) default)
        (phase1 rs x).hmap ≠ 0 ∧
        countPlus x (rs.reads.getD
        (((sortOlap (phase1 rs x).olap).getD i Overlap.zero).iy) default)
        (phase1 rs x).hmap = 0
    · rw [if_pos hmz, if_pos hmz]
      exact ⟨(decide_eq_false hcmp).symm, rfl⟩
    · rw [if_neg hmz, if_neg hmz]
      refine ⟨?_, ?_⟩
      · rw [hunt.1]
        exact (decide_eq_false hcmp).symm
      · exact hunt.2.2.2

/-- C1 counterexample to the spec's tie rule: a candidate with four
shared hits, two per orientation (nPlus = nMinus = 2 > 0), is examined
and not bad, yet its isPlus stays false — the spec says a tie is
classified as plus. -/
theorem overlap_orientation_tie_cex :
    countPlus xC1 (rsC1.reads.getD
      (((sortOlap (phase1 rsC1 xC1).olap).getD 0 Overlap.zero).iy) default)
      (phase1 rsC1 xC1).hmap = 2 ∧
    countMinus xC1 (rsC1.reads.getD
      (((sortOlap (phase1 rsC1 xC1).olap).getD 0 Overlap.zero).iy) default)
      (phase1 rsC1 xC1).hmap = 2 ∧
    0 + 1 < (findOverlaps rsC1 xC1).length ∧
    3 ≤ ((sortOlap (phase1 rsC1 xC1).olap).getD 0 Overlap.zero).nHit ∧
    (rsC1.reads.getD (((sortOlap (phase1 rsC1 xC1).olap).getD 0 Overlap.zero).iy)
      default).bad = false ∧
    ((findOverlaps rsC1 xC1).getD 0 Overlap.zero).isPlus = false ∧
    ((findOverlaps rsC1 xC1).getD 0 Overlap.zero).nBadFlip = 0 := by
  decide

/-- C1 witness: the corrected rule evaluated on the tie example. -/
theorem overlap_orientation_witness :
    0 + 1 < (findOverlaps rsC1 xC1).length ∧
    (rsC1.reads.getD (((sortOlap (phase1 rsC1 xC1).olap).getD 0 Overlap.zero).iy)
      default).bad = false ∧
    (((findOverlaps rsC1 xC1).getD 0 Overlap.zero).isPlus =
      decide (countMinus xC1 (rsC1.reads.getD
          (((sortOlap (phase1 rsC1 xC1).olap).getD 0 Overlap.zero).iy) default)
          (phase1 rsC1 xC1).hmap <
        countPlus xC1 (rsC1.reads.getD
          (((sortOlap (phase1 rsC1 xC1).olap).getD 0 Overlap.zero).iy) default)
          (phase1 rsC1 xC1).hmap) ∧
    ((findOverlaps rsC1 xC1).getD 0 Overlap.zero).nBadFlip =
      (if countMinus xC1 (rsC1.reads.getD
            (((sortOlap (phase1 rsC1 xC1).olap).getD 0 Overlap.zero).iy) default)
            (phase1 rsC1 xC1).hmap <
          countPlus xC1 (rsC1.reads.getD
            (((sortOlap (phase1 rsC1 xC1).olap).getD 0 Overlap.zero).iy) default)
            (phase1 rsC1 xC1).hmap then
        countMinus xC1 (rsC1.reads.getD
          (((sortOlap (phase1 rsC1 xC1).olap).getD 0 Overlap.zero).iy) default)
          (phase1 rsC1 xC1).hmap
      else if countMinus xC1 (rsC1.reads.getD
            (((sortOlap (phase1 rsC1 xC1).olap).getD 0 Overlap.zero).iy) default)
            (phase1 rsC1 xC1).hmap ≠ 0 ∧
          countPlus xC1 (rsC1.reads.getD
            (((sortOlap (phase1 rsC1 xC1).olap).getD 0 Overlap.zero).iy) default)
            (phase1 rsC1 xC1).hmap = 0 then
        countPlus xC1 (rsC1.reads.getD
          (((sortOlap (phase1 rsC1 xC1).olap).getD 0 Overlap.zero).iy) default)
          (phase1 rsC1 xC1).hmap
      else 0)) :=
  ⟨by decide, by decide, overlap_orientation rsC1 xC1 0 (by decide) (by decide)⟩

/-- C2 (code bug): merging two modsets that both hold the same hash with
copy class 1 yields copy class 3, not the spec's min(1 + 1, 3) = 2: the
merge loop masks the target info with 0x3 (keeping the old copy bits)
and ORs the saturated sum in, instead of clearing the copy bits with
0xfc as msSetCopy does. -/
theorem merge_copy_class_bug :
    (modsetMerge msA msB).map (fun r => (r.1, msCopy r.2 1, r.2.depth 1, r.2.max)) =
      some (true, 3, 30, 1) ∧
    msCopy msA 1 = 1 ∧ msCopy msB 1 = 1 ∧ msB.value 1 = msA.value 1 ∧
    min (msCopy msA 1 + msCopy msB 1) 3 = 2 := by
  decide

/-- C3 (corrected): the returned array is never empty; every record
before the last has nHit ≥ 3 and keeps the nHit of the corresponding
sorted candidate, and the length is exactly the ≥3 prefix of the sorted
candidates plus one — but the LAST record always has nHit < 3 (the break
happens after the element is already inside the truncated bound, and the
burned record ends the array when no break fires), refuting "every
record has nHit ≥ 3". -/
theorem overlaps_truncation (rs : Readset) (x : Read) :
    0 < (findOverlaps rs x).length ∧
    (∀ i, i + 1 < (findOverlaps rs x).length →
      3 ≤ ((findOverlaps rs x).getD i Overlap.zero).nHit) ∧
    ((findOverlaps rs x).getD ((findOverlaps rs x).length - 1) Overlap.zero).nHit < 3 ∧
    (findOverlaps rs x).length =
      min (sortOlap (phase1 rs x).olap).length
        (((sortOlap (phase1 rs x).olap).takeWhile
          (fun o => decide (3 ≤ o.nHit))).length + 1) ∧
    ∀ i, i < (findOverlaps rs x).length →
      ((findOverlaps rs x).getD i Overlap.zero).nHit =
        ((sortOlap (phase1 rs x).olap).getD i Overlap.zero).nHit := by
  have hOK := phase1_ok rs x
  have hlen0 : 0 < (sortOlap (phase1 rs x).olap).length := by
    rw [(sortOlap_perm (phase1 rs x).olap).length_eq]
    exact hOK.1
  have hsne : sortOlap (phase1 rs x).olap ≠ [] := by
    intro hc
    rw [hc] at hlen0
    simp at hlen0
  have hzmem : Overlap.zero ∈ sortOlap (phase1 rs x).olap := by
    rw [(sortOlap_perm (phase1 rs x).olap).mem_iff]
    have hmem0 : (phase1 rs x).olap.getD 0 Overlap.zero ∈ (phase1 rs x).olap := by
      rw [List.getD_eq_getElem?_getD, List.getElem?_eq_getElem hOK.1]
      exact List.getElem_mem hOK.1
    rw [← hOK.2.1]
    exact hmem0
  unfold findOverlaps
  refine ⟨?_, ?_, ?_, ?_, ?_⟩
  · exact List.length_pos.mpr
      (classifyLoop_ne_nil rs x (phase1 rs x).hmap (phase1 rs x).xPos _ hsne)
  · intro i hi
    obtain ⟨heq, h3⟩ := classifyLoop_getD_examined rs x (phase1 rs x).hmap
      (phase1 rs x).xPos (sortOlap (phase1 rs x).olap) i hi
    obtain ⟨hnh, _⟩ := classifyLoop_getD_nHit rs x (phase1 rs x).hmap
      (phase1 rs x).xPos (sortOlap (phase1 rs x).olap) i (by omega)
    omega
  · exact classifyLoop_last rs x (phase1 rs x).hmap (phase1 rs x).xPos
      (sortOlap (phase1 rs x).olap) (sortOlap_sorted (phase1 rs x).olap)
      ⟨Overlap.zero, hzmem, by decide⟩
  · exact classifyLoop_length rs x (phase1 rs x).hmap (phase1 rs x).xPos
      (sortOlap (phase1 rs x).olap)
  · intro i hi
    exact (classifyLoop_getD_nHit rs x (phase1 rs x).hmap (phase1 rs x).xPos
      (sortOlap (phase1 rs x).olap) i hi).1

/-- C3 counterexample to "every record has nHit ≥ 3": on an empty read
set the returned array still holds the burned record with nHit = 0. -/
theorem overlaps_truncation_cex :
    (findOverlaps rsT xT).all (fun o => decide (3 ≤ o.nHit)) = false ∧
    0 < (findOverlaps rsT xT).length := by
  decide

/-- C4 (confirmed): modsetMerge fails exactly when the hashers differ in
w, k or factor1, and then the returned modset is the unchanged ms1. -/
theorem merge_failure_iff (ms1 ms2 : Modset) :
    (modsetMerge ms1 ms2 = some (false, ms1) ↔
      (ms1.hasher.w ≠ ms2.hasher.w ∨ ms1.hasher.k ≠ ms2.hasher.k ∨
        ms1.hasher.factor1 ≠ ms2.hasher.factor1)) ∧
    (∀ fl msf, modsetMerge ms1 ms2 = some (fl, msf) → fl = false → msf = ms1) := by
  constructor
  · constructor
    · intro hr
      by_contra hc
      unfold modsetMerge at hr
      rw [if_neg hc] at hr
      simp only [Option.map_eq_some'] at hr
      obtain ⟨a, _, heq⟩ := hr
      have := congrArg Prod.fst heq
      simp at this
    · intro hc
      unfold modsetMerge
      rw [if_pos hc]
  · intro fl msf hr hfl
    unfold modsetMerge at hr
    by_cases hc : ms1.hasher.w ≠ ms2.hasher.w ∨ ms1.hasher.k ≠ ms2.hasher.k ∨
        ms1.hasher.factor1 ≠ ms2.hasher.factor1
    · rw [if_pos hc] at hr
      have heq := Option.some_inj.mp hr
      exact (congrArg Prod.snd heq).symm
    · rw [if_neg hc] at hr
      simp only [Option.map_eq_some'] at hr
      obtain ⟨a, _, heq⟩ := hr
      have hfl2 := congrArg Prod.fst heq
      rw [hfl] at hfl2
      simp at hfl2

/-- C4 witness: a failing merge of two concrete modsets whose hashers
differ in k, evaluated both ways. -/
theorem merge_failure_iff_witness :
    modsetMerge msA msB2 = some (false, msA) ∧
    (msA.hasher.w ≠ msB2.hasher.w ∨ msA.hasher.k ≠ msB2.hasher.k ∨
      msA.hasher.factor1 ≠ msB2.hasher.factor1) :=
  ⟨(merge_failure_iff msA msB2).1.mpr (by decide), by decide⟩

/-- C5 (confirmed): on every modset built by the public operations, a
lookup of value[i] (isAdd = false) returns exactly id i with the modset
unchanged, for every i in [1, max]. -/
theorem modset_find_id (ms : Modset) (hB : ModsetBuilt ms) (i : Nat)
    (h1 : 1 ≤ i) (h2 : i ≤ ms.max) :
    modsetIndexFind ms (ms.value i) false = some (i, ms) :=
  modsetIndexFind_value ms (modsetBuilt_inv ms hB) i h1 h2 false

/-- C5 witness: the lookup on the one-entry built modset. -/
theorem modset_find_id_witness :
    ModsetBuilt msW ∧ 1 ≤ msW.max ∧
    modsetIndexFind msW (msW.value 1) false = some (1, msW) :=
  ⟨msW_built, by decide, modset_find_id msW msW_built 1 (by decide) (by decide)⟩

/-- C6 (confirmed): depth pruning keeps exactly the old ids whose depth
lies in [a, b) (b = 0 unbounded), renumbered contiguously from 1 in
increasing old-id order with new id ≤ old id, carrying depth and info
unchanged. -/
theorem prune_window (ms : Modset) (hB : ModsetBuilt ms) (a b : Nat) :
    ∃ ms2, modsetDepthPrune ms a b = some ms2 ∧
      ms2.max = (pruneSurvivors ms a b ms.max).length ∧
      (∀ i, i ∈ pruneSurvivors ms a b ms.max ↔
        (1 ≤ i ∧ i ≤ ms.max ∧ a ≤ ms.depth i ∧ (b = 0 ∨ ms.depth i < b))) ∧
      ∀ j, 1 ≤ j → j ≤ ms2.max →
        j ≤ (pruneSurvivors ms a b ms.max).getD (j - 1) 0 ∧
        ms2.value j = ms.value ((pruneSurvivors ms a b ms.max).getD (j - 1) 0) ∧
        ms2.depth j = ms.depth ((pruneSurvivors ms a b ms.max).getD (j - 1) 0) ∧
        ms2.info j = ms.info ((pruneSurvivors ms a b ms.max).getD (j - 1) 0) := by
  obtain ⟨st, hfold, hok⟩ :=
    prune_fold_ok ms (modsetBuilt_inv ms hB) a b ms.max (le_refl ms.max)
  refine ⟨st, hfold, hok.maxeq, fun i => pruneSurvivors_mem ms a b ms.max i, ?_⟩
  intro j hj1 hj2
  obtain ⟨ho1, _, _, hov, hod, hoi⟩ := hok.oldid j hj1 hj2
  exact ⟨ho1, hov, hod, hoi⟩

/-- C6 witness: pruning the one-entry built modset with the unbounded
window [0, 0). -/
theorem prune_window_witness :
    ModsetBuilt msW ∧
    (∃ ms2, modsetDepthPrune msW 0 0 = some ms2 ∧
      ms2.max = (pruneSurvivors msW 0 0 msW.max).length ∧
      (∀ i, i ∈ pruneSurvivors msW 0 0 msW.max ↔
        (1 ≤ i ∧ i ≤ msW.max ∧ 0 ≤ msW.depth i ∧ (0 = 0 ∨ msW.depth i < 0))) ∧
      ∀ j, 1 ≤ j → j ≤ ms2.max →
        j ≤ (pruneSurvivors msW 0 0 msW.max).getD (j - 1) 0 ∧
        ms2.value j = msW.value ((pruneSurvivors msW 0 0 msW.max).getD (j - 1) 0) ∧
        ms2.depth j = msW.depth ((pruneSurvivors msW 0 0 msW.max).getD (j - 1) 0) ∧
        ms2.info j = msW.info ((pruneSurvivors msW 0 0 msW.max).getD (j - 1) 0)) :=
  ⟨msW_built, prune_window msW msW_built 0 0⟩

/-- C7 (confirmed): for a well-formed hasher and a 2-bit sequence, the
iterator's emitted triples are exactly the spec stream: the positions p
in [0, L-k] with canonical hash divisible by w, in increasing order,
each carrying the canonical-orientation k-mer and its orientation; and
the stream is empty when L < k. -/
theorem modimizer_stream (sh : Seqhash) (s : List Nat) (hwf : sh.WF)
    (hs : ∀ b ∈ s, b < 4) :
    modRCtriples sh s = modSpecTriples sh s ∧
    (s.length < sh.k → modRCtriples sh s = []) := by
  refine ⟨modRC_triples_spec sh s hwf hs, ?_⟩
  intro hlen
  rw [modRC_triples_spec sh s hwf hs]
  unfold modSpecTriples
  rw [if_pos hlen]

/-- C7 witness: the k = 2, w = 2 hasher on the sequence 0 1 2 3 0 1. -/
theorem modimizer_stream_witness :
    hashSmall.WF ∧ (∀ b ∈ [0, 1, 2, 3, 0, 1], b < 4) ∧
    (modRCtriples hashSmall [0, 1, 2, 3, 0, 1] =
      modSpecTriples hashSmall [0, 1, 2, 3, 0, 1] ∧
    (([0, 1, 2, 3, 0, 1] : List Nat).length < hashSmall.k →
      modRCtriples hashSmall [0, 1, 2, 3, 0, 1] = [])) :=
  ⟨by unfold Seqhash.WF; decide, by decide,
   modimizer_stream hashSmall [0, 1, 2, 3, 0, 1] (by unfold Seqhash.WF; decide) (by decide)⟩

/-- C8 (confirmed): reading back a written modset reproduces the hasher
fields, max, the whole index table and the value / depth / info entries
of every id in [1, max] (here 0..max; 0 is the burned id). -/
theorem modset_roundtrip (ms : Modset) (hB : ModsetBuilt ms) :
    ∃ msR, modsetRead (modsetWrite ms) = some msR ∧
      msR.hasher.seed = ms.hasher.seed ∧ msR.hasher.k = ms.hasher.k ∧
      msR.hasher.w = ms.hasher.w ∧ msR.hasher.mask = ms.hasher.mask ∧
      msR.hasher.shift1 = ms.hasher.shift1 ∧ msR.hasher.shift2 = ms.hasher.shift2 ∧
      msR.hasher.factor1 = ms.hasher.factor1 ∧ msR.hasher.factor2 = ms.hasher.factor2 ∧
      (∀ b, b < 4 → msR.hasher.patternRC b = ms.hasher.patternRC b) ∧
      msR.max = ms.max ∧ msR.tableBits = ms.tableBits ∧
      msR.tableSize = ms.tableSize ∧ msR.tableMask = ms.tableMask ∧
      msR.size = ms.max + 1 ∧
      (∀ off, off < ms.tableSize → msR.index off = ms.index off) ∧
      (∀ i, i ≤ ms.max → msR.value i = ms.value i ∧ msR.depth i = ms.depth i ∧
        msR.info i = ms.info i) := by
  have inv := modsetBuilt_inv ms hB
  have hcap : ms.max + 1 < (2 ^ ms.tableBits) >>> 2 := by
    have h1 := inv.maxsize
    have h2 := inv.sizecap
    have hts := inv_ts_big ms inv
    have hdiv := inv_shift_div ms
    have h20 : (2 : Nat) ^ 20 = 1048576 := by norm_num
    rw [← inv.geom.1]
    omega
  exact modsetWrite_read ms inv.bitslo inv.bitshi inv.geom hcap

/-- C8 witness: the round trip on the one-entry built modset. -/
theorem modset_roundtrip_witness :
    ModsetBuilt msW ∧
    (∃ msR, modsetRead (modsetWrite msW) = some msR ∧
      msR.hasher.seed = msW.hasher.seed ∧ msR.hasher.k = msW.hasher.k ∧
      msR.hasher.w = msW.hasher.w ∧ msR.hasher.mask = msW.hasher.mask ∧
      msR.hasher.shift1 = msW.hasher.shift1 ∧ msR.hasher.shift2 = msW.hasher.shift2 ∧
      msR.hasher.factor1 = msW.hasher.factor1 ∧ msR.hasher.factor2 = msW.hasher.factor2 ∧
      (∀ b, b < 4 → msR.hasher.patternRC b = msW.hasher.patternRC b) ∧
      msR.max = msW.max ∧ msR.tableBits = msW.tableBits ∧
      msR.tableSize = msW.tableSize ∧ msR.tableMask = msW.tableMask ∧
      msR.size = msW.max + 1 ∧
      (∀ off, off < msW.tableSize → msR.index off = msW.index off) ∧
      (∀ i, i ≤ msW.max → msR.value i = msW.value i ∧ msR.depth i = msW.depth i ∧
        msR.info i = msW.info i)) :=
  ⟨msW_built, modset_roundtrip msW msW_built⟩

/-- C9 (confirmed): for every built modset and every hash, the stride is
odd, the probe sequence is injective and surjective on the first
tableSize steps (a full cycle), the probe walk stops within tableSize
probes, and a pure lookup always returns. -/
theorem probe_cycle (ms : Modset) (hB : ModsetBuilt ms) (h : Nat) :
    probeStride ms h % 2 = 1 ∧
    (∀ m n, m < ms.tableSize → n < ms.tableSize →
      probeOffSeq ms h m = probeOffSeq ms h n → m = n) ∧
    (∀ off, off < ms.tableSize → ∃ n < ms.tableSize, probeOffSeq ms h n = off) ∧
    (∃ off, probeLoop ms h ms.tableSize (h &&& ms.tableMask) = some off) ∧
    (∃ r, modsetIndexFind ms h false = some r) := by
  have inv := modsetBuilt_inv ms hB
  exact ⟨probeStride_odd ms h,
    fun m n hm hn he => probeOffSeq_inj ms inv.geom h hm hn he,
    fun off hoff => probeOffSeq_surj ms inv.geom h off hoff,
    probeLoop_total ms inv h,
    modsetIndexFind_lookup_total ms inv h⟩

/-- C9 witness: the probe cycle on the one-entry built modset at hash 3. -/
theorem probe_cycle_witness :
    ModsetBuilt msW ∧
    (probeStride msW 3 % 2 = 1 ∧
    (∀ m n, m < msW.tableSize → n < msW.tableSize →
      probeOffSeq msW 3 m = probeOffSeq msW 3 n → m = n) ∧
    (∀ off, off < msW.tableSize → ∃ n < msW.tableSize, probeOffSeq msW 3 n = off) ∧
    (∃ off, probeLoop msW 3 msW.tableSize (3 &&& msW.tableMask) = some off) ∧
    (∃ r, modsetIndexFind msW 3 false = some r)) :=
  ⟨msW_built, probe_cycle msW msW_built 3⟩

/-- C10 (confirmed): when the forward and reverse-complement hashes tie
(in particular for a self-reverse-complement k-mer), hashRC reports the
reverse orientation, and the spec stream's canonical orientation and
k-mer at such a position are the reverse-complement ones: the tie always
breaks toward reverse, never forward. -/
theorem canonical_tie_reverse (sh : Seqhash) (u v : Nat) (s : List Nat) (p : Nat)
    (huv : seqhash sh u = seqhash sh v)
    (hsp : seqhash sh (fwdN s sh.k p) = seqhash sh (rcN s sh.k p)) :
    hashRC sh u v = (seqhash sh v, false) ∧
    canonIsF sh s p = false ∧
    canonKmer sh s p = rcN s sh.k p := by
  have hIsF : canonIsF sh s p = false := by
    unfold canonIsF
    rw [hsp]
    exact decide_eq_false (Nat.lt_irrefl _)
  refine ⟨?_, hIsF, ?_⟩
  · show (if seqhash sh u < seqhash sh v then (seqhash sh u, true)
      else (seqhash sh v, false)) = (seqhash sh v, false)
    rw [if_neg (by rw [huv]; exact Nat.lt_irrefl _)]
  · unfold canonKmer
    rw [hIsF]
    rfl

/-- C10 witness: with the zero-multiplier hasher every hash is 0, so
every pair ties; the canonical data at position 0 of the sequence 0 0. -/
theorem canonical_tie_reverse_witness :
    seqhash hashZero 5 = seqhash hashZero 10 ∧
    seqhash hashZero (fwdN [0, 0] hashZero.k 0) =
      seqhash hashZero (rcN [0, 0] hashZero.k 0) ∧
    (hashRC hashZero 5 10 = (seqhash hashZero 10, false) ∧
     canonIsF hashZero [0, 0] 0 = false ∧
     canonKmer hashZero [0, 0] 0 = rcN [0, 0] hashZero.k 0) :=
  ⟨rfl, rfl, canonical_tie_reverse hashZero 5 10 [0, 0] 0 rfl rfl⟩

end Modimizer
